import Mathlib

/-!
# go-id3: tag header decoder and frame dispatch (`id3.go`)

A shallow embedding of `id3.go`: the `File` and `ID3v2Header` records, the
`ID3Parser` interface, `isID3Tag`, `parseID3v2Header` and `Read`, together with
the parts of the Go standard library they run on (`io.Reader`, `bufio.Reader`,
`io.LimitReader`), followed by theorems about them.

Conventions of the embedding:

* a byte is a `Fin 256`; Go's `uint8` arithmetic is written on `Nat` with an
  explicit `% 256`;
* pointer-held Go objects (readers, decoders, the `*File`) are passed as
  explicit state: an operation takes the state and returns the new one;
* a Go run-time panic is a value (`none` for an index out of range inside
  `parseID3v2Header`, `Outcome.panicked` for `Read`);
* the frame loop of `Read` is bounded by a fuel argument; the outcome is
  `Outcome.unfinished` when the fuel runs out before the loop ends;
* calls on the frame decoders are recorded in a ghost list of `Event`s;
* the caller's reader is any type with a `read` operation (`IOReader`), other
  than a `*bufio.Reader`, which `bufio.NewReader` would not wrap; `ByteReader`
  delivers every byte asked for, `ChunkReader` delivers short reads, and
  `Delivers` says that a reader hands over its pending bytes in order and
  without loss.
-/

namespace ID3

/-! ## Bytes and readers -/

/-- A Go `byte`. -/
abbrev Byte := Fin 256

/-- Go's `io.Reader`: `read r n` is one call `r.Read(p)` with `len(p) = n`; it
returns the bytes stored at the front of `p` and the reader afterwards.  An
empty result for a non-zero request stands for `0, err` (end of stream). -/
class IOReader (ρ : Type) where
  read : ρ → Nat → List Byte × ρ

/-- A reader over a fixed sequence of bytes that delivers every byte asked for
that is left (`bytes.Reader`, `strings.Reader`, a regular file): the caller's
stream. -/
structure ByteReader where
  rest : List Byte
  deriving DecidableEq, Repr

instance : IOReader ByteReader where
  read r n := (r.rest.take n, ⟨r.rest.drop n⟩)

/-- A reader over a fixed sequence of bytes that delivers at most `cap` bytes
per call (`iotest.OneByteReader` for `cap = 1`, a pipe or a socket that hands
over one packet at a time): a reader with short reads. -/
structure ChunkReader where
  rest : List Byte
  cap : Nat
  deriving DecidableEq, Repr

instance : IOReader ChunkReader where
  read r n := (r.rest.take (min n r.cap), ⟨r.rest.drop (min n r.cap), r.cap⟩)

/-- The default buffer size of `bufio.NewReader`. -/
def defaultBufSize : Nat := 4096

/-- A `bufio.Reader` of the default size: `buf` is the unread part of its
buffer (`b.buf[b.r:b.w]`), `rd` the reader it wraps. -/
structure BufioReader (ρ : Type) where
  buf : List Byte
  rd : ρ
  deriving DecidableEq, Repr

/-- The Go call `bufio.NewReader(rd)`, for an `rd` that is not itself a `*bufio.Reader`. -/
def NewReader {ρ : Type} (rd : ρ) : BufioReader ρ := ⟨[], rd⟩

/-- The loop of `(*bufio.Reader).Peek(n)`: fill the buffer from the wrapped
reader until it holds `n` bytes, is full, or the wrapped reader reports an
error.  Every round adds a byte or stops, so `n + 1` rounds of fuel suffice. -/
def peekFill {ρ : Type} [IOReader ρ] (n : Nat) : Nat → BufioReader ρ → BufioReader ρ
  | 0, b => b
  | fuel + 1, b =>
    if b.buf.length < n ∧ b.buf.length < defaultBufSize then
      match IOReader.read b.rd (defaultBufSize - b.buf.length) with
      | (bs, rd') =>
        if bs.isEmpty then ⟨b.buf, rd'⟩
        else peekFill n fuel ⟨b.buf ++ bs, rd'⟩
    else b

/-- The Go call `b.Peek(n)`: the next `n` bytes without advancing the reader,
an error flag (set exactly when fewer than `n` bytes are available), and the
reader afterwards. -/
def BufioReader.Peek {ρ : Type} [IOReader ρ] (b : BufioReader ρ) (n : Nat) :
    List Byte × Bool × BufioReader ρ :=
  let b' := peekFill n (n + 1) b
  (b'.buf.take n, decide (b'.buf.length < n), b')

/-- The Go call `b.Read(p)` with `len(p) = n`: the bytes come from the buffer
when it is not empty, else from at most one read of the wrapped reader. -/
def BufioReader.Read {ρ : Type} [IOReader ρ] (b : BufioReader ρ) (n : Nat) :
    List Byte × BufioReader ρ :=
  if n = 0 then ([], b)
  else if b.buf.isEmpty then
    if defaultBufSize ≤ n then
      match IOReader.read b.rd n with
      | (bs, rd') => (bs, ⟨[], rd'⟩)
    else
      match IOReader.read b.rd defaultBufSize with
      | (bs, rd') => (bs.take n, ⟨bs.drop n, rd'⟩)
  else (b.buf.take n, ⟨b.buf.drop n, b.rd⟩)

instance {ρ : Type} [IOReader ρ] : IOReader (BufioReader ρ) where
  read := BufioReader.Read

/-- The reader `io.LimitReader(R, N)` returns (`io.LimitedReader`). -/
structure LimitedReader (ρ : Type) where
  R : ρ
  N : Int
  deriving DecidableEq, Repr

/-- The Go call `io.LimitReader(r, n)`. -/
def LimitReader {ρ : Type} (r : ρ) (n : Int) : LimitedReader ρ := ⟨r, n⟩

/-- The Go call `l.Read(p)` with `len(p) = n`: nothing once `N <= 0`, else a
read of at most `N` bytes from `R`, and `N` goes down by what was read. -/
def LimitedReader.Read {ρ : Type} [IOReader ρ] (l : LimitedReader ρ) (n : Nat) :
    List Byte × LimitedReader ρ :=
  if l.N ≤ 0 then ([], l)
  else
    match IOReader.read l.R (if l.N < (n : Int) then l.N.toNat else n) with
    | (bs, R') => (bs, ⟨R', l.N - (bs.length : Int)⟩)

instance {ρ : Type} [IOReader ρ] : IOReader (LimitedReader ρ) where
  read := LimitedReader.Read

/-- Successive `Read` calls on a reader, one for each requested length; the
bytes delivered, in order, and the reader afterwards. -/
def readMany {ρ : Type} [IOReader ρ] : List Nat → ρ → List Byte × ρ
  | [], r => ([], r)
  | n :: ns, r =>
    match IOReader.read r n with
    | (bs, r') =>
      match readMany ns r' with
      | (cs, r'') => (bs ++ cs, r'')

/-! ## The records of `id3.go` -/

/-- The Go struct `ID3v2Header`. -/
structure ID3v2Header where
  Version : Int
  MinorVersion : Int
  Unsynchronization : Bool
  Extended : Bool
  Experimental : Bool
  Footer : Bool
  Size : Int
  deriving DecidableEq, Repr

/-- The Go struct `File`. -/
structure File where
  Header : ID3v2Header
  Name : String
  Artist : String
  Album : String
  Year : String
  Track : String
  Disc : String
  Genre : String
  Length : String
  deriving DecidableEq, Repr

/-- The Go expression `new(File)`: every field has its zero value. -/
def File.new : File :=
  ⟨⟨0, 0, false, false, false, false, 0⟩, "", "", "", "", "", "", "", ""⟩

/-! ## Header decoding -/

/-- Conversion of a non-negative integer to Go's `int32` (two's complement). -/
def toInt32 (n : Nat) : Int :=
  if n % 2 ^ 32 < 2 ^ 31 then ((n % 2 ^ 32 : Nat) : Int)
  else ((n % 2 ^ 32 : Nat) : Int) - 2 ^ 32

/-- Modelled from the spec: `parseSize` is called by `parseID3v2Header` but its
body is not in `id3.go`.  Spec §4.1: the argument is a 4-byte sequence, each
byte contributes its low 7 bits, and the `int32` result is
`b0<<21 | b1<<14 | b2<<7 | b3`.  The spec gives no value for a sequence of
another length; `0` is used there (`parseID3v2Header` always passes 4 bytes). -/
def parseSize (data : List Byte) : Int :=
  match data with
  | [b0, b1, b2, b3] =>
    toInt32 ((((b0.val &&& 0x7f) <<< 21) ||| ((b1.val &&& 0x7f) <<< 14)
      ||| ((b2.val &&& 0x7f) <<< 7)) ||| (b3.val &&& 0x7f))
  | _ => 0

/-- The effect of `reader.Read(data)` on the slice `data`: the bytes delivered
overwrite its front, the rest keeps its value, the length does not change. -/
def readInto (data bs : List Byte) : List Byte :=
  (bs ++ data.drop bs.length).take data.length

/-- The Go slice expression `data[i:]`: `none` is the out-of-range panic. -/
def sliceFrom (data : List Byte) (i : Nat) : Option (List Byte) :=
  if i ≤ data.length then some (data.drop i) else none

/-- The Go test `x&1<<k != 0` on a byte `x`.  Go gives `&` and `<<` the same
precedence and groups to the left, so this is `((x & 1) << k) != 0`, computed
in `uint8`. -/
def flagSet (x : Byte) (k : Nat) : Bool :=
  decide (((x.val &&& 1) <<< k) % 256 ≠ 0)

/-- The Go function `parseID3v2Header(file, reader)`: the record and the reader
afterwards; `none` is an index-out-of-range panic. -/
def parseID3v2Header {ρ : Type} [IOReader ρ] (file : File) (reader : ρ) :
    Option (File × ρ) :=
  match IOReader.read reader 10 with
  | (bs, reader') =>
    let data := readInto (List.replicate 10 (0 : Byte)) bs
    do
      let d3 ← data[3]?
      let d4 ← data[4]?
      let d5 ← data[5]?
      let tail ← sliceFrom data 6
      pure ({ file with
              Header :=
                { Version := (d3.val : Int)
                  MinorVersion := (d4.val : Int)
                  Unsynchronization := flagSet d5 7
                  Extended := flagSet d5 6
                  Experimental := flagSet d5 5
                  Footer := flagSet d5 4
                  Size := parseSize tail } }, reader')

/-- The Go function `isID3Tag(reader)`: the answer and the reader afterwards. -/
def isID3Tag {ρ : Type} [IOReader ρ] (reader : BufioReader ρ) : Bool × BufioReader ρ :=
  match reader.Peek 3 with
  | (data, err, reader') =>
    if data.length < 3 ∨ err = true then (false, reader')
    else (decide (data[0]? = some 73 ∧ data[1]? = some 68 ∧ data[2]? = some 51), reader')

/-! ## Frame decoders and `Read` -/

/-- The reader `Read` hands to a frame decoder:
`bufio.NewReader(io.LimitReader(bufReader, size))`. -/
abbrev View (ρ : Type) := BufioReader (LimitedReader (BufioReader ρ))

/-- A frame decoder object: the reader it was constructed on and its own state. -/
structure Decoder (ρ σ : Type) where
  view : View ρ
  state : σ

/-- The Go interface `ID3Parser`, with the constructor of the implementing
type.  The three implementations are not in `id3.go`; they are parameters. -/
structure ID3Parser (ρ σ : Type) where
  New : View ρ → Decoder ρ σ
  HasFrame : Decoder ρ σ → Bool × Decoder ρ σ
  ReadFrame : Decoder ρ σ → File → Decoder ρ σ × File

/-- The three frame decoders `Read` chooses from. -/
inductive Variant where
  | v22
  | v23
  | v24
  deriving DecidableEq, Repr

/-- The decoder implementations behind `NewID3v22Parser`, `NewID3v23Parser`
and `NewID3v24Parser`. -/
structure Parsers (ρ σ : Type) where
  ID3v22 : ID3Parser ρ σ
  ID3v23 : ID3Parser ρ σ
  ID3v24 : ID3Parser ρ σ

/-- The implementation of a variant. -/
def Parsers.get {ρ σ : Type} (ps : Parsers ρ σ) : Variant → ID3Parser ρ σ
  | .v22 => ps.ID3v22
  | .v23 => ps.ID3v23
  | .v24 => ps.ID3v24

/-- A call `Read` makes on a frame decoder. -/
inductive Event (ρ : Type) where
  | construct (v : Variant) (view : View ρ)
  | hasFrame (v : Variant) (more : Bool)
  | readFrame (v : Variant)
  deriving DecidableEq, Repr

/-- How a call of `Read` ends; `unfinished` is the model running out of fuel
inside the frame loop (the Go call has not returned yet). -/
inductive Outcome where
  | absent
  | record (file : File)
  | panicked (msg : String)
  | unfinished
  deriving DecidableEq, Repr

/-- What a call of `Read` leaves behind: how it ended, the calls it made on
frame decoders, and the caller's reader afterwards. -/
structure ReadResult (ρ : Type) where
  outcome : Outcome
  calls : List (Event ρ)
  reader : ρ

/-- The loop `for parser.HasFrame() { parser.ReadFrame(file) }`, run for at
most `fuel` rounds: whether the loop ended, the decoder and the record at that
point, and the calls made. -/
def frameLoop {ρ σ : Type} (p : ID3Parser ρ σ) (v : Variant) :
    Nat → Decoder ρ σ → File → Bool × Decoder ρ σ × File × List (Event ρ)
  | 0, d, file => (false, d, file, [])
  | fuel + 1, d, file =>
    match p.HasFrame d with
    | (true, d') =>
      match p.ReadFrame d' file with
      | (d'', file') =>
        match frameLoop p v fuel d'' file' with
        | (done, d3, file3, calls) =>
          (done, d3, file3, Event.hasFrame v true :: Event.readFrame v :: calls)
    | (false, d') => (true, d', file, [Event.hasFrame v false])

/-- The version test of `Read`: the decoder chosen for a header version, `none`
for the branch that panics. -/
def selectVariant (version : Int) : Option Variant :=
  if version = 2 then some .v22
  else if version = 3 then some .v23
  else if version = 4 then some .v24
  else none

/-- The Go function `Read(reader)`. -/
def Read {ρ σ : Type} [IOReader ρ] (ps : Parsers ρ σ) (fuel : Nat) (reader : ρ) :
    ReadResult ρ :=
  let file := File.new
  let bufReader := NewReader reader
  match isID3Tag bufReader with
  | (false, bufReader) => ⟨Outcome.absent, [], bufReader.rd⟩
  | (true, bufReader) =>
    match parseID3v2Header file bufReader with
    | none => ⟨Outcome.panicked "index out of range", [], bufReader.rd⟩
    | some (file, bufReader) =>
      let limitReader := NewReader (LimitReader bufReader file.Header.Size)
      match selectVariant file.Header.Version with
      | none =>
        ⟨Outcome.panicked
          ("Unrecognized ID3v2 version: " ++ toString file.Header.Version), [], bufReader.rd⟩
      | some v =>
        let parser := (ps.get v).New limitReader
        match frameLoop (ps.get v) v fuel parser file with
        | (true, parser', file', calls) =>
          ⟨Outcome.record file', Event.construct v limitReader :: calls, parser'.view.rd.R.rd⟩
        | (false, parser', _, calls) =>
          ⟨Outcome.unfinished, Event.construct v limitReader :: calls, parser'.view.rd.R.rd⟩

/-! ## Notions used to state the theorems -/

/-- The major version a decoder variant is for (ID3v2.2, ID3v2.3, ID3v2.4). -/
def Variant.version : Variant → Int
  | .v22 => 2
  | .v23 => 3
  | .v24 => 4

/-- A frame decoder that never has a frame: `HasFrame` answers false and
touches nothing. -/
def noFrames (ρ : Type) : ID3Parser ρ Unit :=
  ⟨fun view => ⟨view, ()⟩, fun d => (false, d), fun d file => (d, file)⟩

/-- The decoder family in which every variant is `noFrames`. -/
def noFrameParsers (ρ : Type) : Parsers ρ Unit :=
  ⟨noFrames ρ, noFrames ρ, noFrames ρ⟩

/-- The bytes a buffered reader over a byte stream has yet to deliver: its
unread buffer, then what is left of the stream. -/
def BufioReader.pending (b : BufioReader ByteReader) : List Byte :=
  b.buf ++ b.rd.rest

/-- The bytes a size-bounded view has yet to deliver: its own unread buffer,
then at most `N` of the bytes pending in the reader under the limit. -/
def View.pending (view : View ByteReader) : List Byte :=
  view.buf ++ (view.rd.R.pending).take view.rd.N.toNat

/-- The header `parseID3v2Header` decodes from a 10-byte buffer that holds the
first bytes of `l` and zero from the end of `l` on. -/
def zeroPaddedHeader (l : List Byte) : ID3v2Header :=
  { Version := ((l.getD 3 0).val : Int)
    MinorVersion := ((l.getD 4 0).val : Int)
    Unsynchronization := flagSet (l.getD 5 0) 7
    Extended := flagSet (l.getD 5 0) 6
    Experimental := flagSet (l.getD 5 0) 5
    Footer := flagSet (l.getD 5 0) 4
    Size := parseSize [l.getD 6 0, l.getD 7 0, l.getD 8 0, l.getD 9 0] }

/-- The reader `Read` builds for the frame decoder on the stream `s`. -/
def boundedView (s : List Byte) : View ByteReader :=
  NewReader (LimitReader
    (⟨(s.take defaultBufSize).drop 10, ⟨s.drop defaultBufSize⟩⟩ : BufioReader ByteReader)
    (zeroPaddedHeader s).Size)

/-- The standard synchsafe encoding of the claim on the size decoder:
`enc(n) = [(n>>21)&0x7f, (n>>14)&0x7f, (n>>7)&0x7f, n&0x7f]`. -/
def encodeSynchsafe (n : Nat) : List Byte :=
  [Fin.ofNat ((n >>> 21) &&& 0x7f), Fin.ofNat ((n >>> 14) &&& 0x7f),
   Fin.ofNat ((n >>> 7) &&& 0x7f), Fin.ofNat (n &&& 0x7f)]

/-- The calls of `k` rounds of the frame loop on the decoder `v`: `HasFrame`
answering true, then `ReadFrame`, `k` times. -/
def framePairs {ρ : Type} (v : Variant) : Nat → List (Event ρ)
  | 0 => []
  | k + 1 => Event.hasFrame v true :: Event.readFrame v :: framePairs v k

/-- A frame decoder whose frames are single bytes: it has a frame while the
view has bytes left to deliver, and reading a frame reads one byte of the
view. -/
def byteFrames : ID3Parser ByteReader Unit :=
  ⟨fun view => ⟨view, ()⟩,
   fun d => (decide (View.pending d.view ≠ []), d),
   fun d file => (⟨(IOReader.read d.view 1).2, ()⟩, file)⟩

/-- The decoder family in which every variant is `byteFrames`. -/
def byteFrameParsers : Parsers ByteReader Unit :=
  ⟨byteFrames, byteFrames, byteFrames⟩

/-- The bytes a buffered reader has yet to deliver, over a reader whose own
pending bytes are `pending`: the unread buffer, then what the wrapped reader
has left. -/
def BufioReader.pendingOver {ρ : Type} (pending : ρ → List Byte) (b : BufioReader ρ) :
    List Byte :=
  b.buf ++ pending b.rd

/-- The bytes a size-bounded view has yet to deliver, over a reader whose own
pending bytes are `pending`: the view's unread buffer, then at most `N` of the
bytes pending in the reader under the limit. -/
def View.pendingOver {ρ : Type} (pending : ρ → List Byte) (view : View ρ) : List Byte :=
  view.buf ++ (BufioReader.pendingOver pending view.rd.R).take view.rd.N.toNat

/-- Lines 62 to 75 of `Read` for the decoder implementation `p` of the variant
`v`: construct the decoder on `view`, run the frame loop on `file`, return the
record. -/
def runDecoder {ρ σ : Type} (p : ID3Parser ρ σ) (v : Variant) (fuel : Nat) (view : View ρ)
    (file : File) : ReadResult ρ :=
  match frameLoop p v fuel (p.New view) file with
  | (true, parser', file', calls) =>
    ⟨Outcome.record file', Event.construct v view :: calls, parser'.view.rd.R.rd⟩
  | (false, parser', _, calls) =>
    ⟨Outcome.unfinished, Event.construct v view :: calls, parser'.view.rd.R.rd⟩

/-- A frame decoder with one frame, which its constructor arms; reading the
frame writes `name` into the `Name` of the record. -/
def stampFrames (ρ : Type) (name : String) : ID3Parser ρ Bool :=
  ⟨fun view => ⟨view, true⟩, fun d => (d.state, d),
   fun d file => (⟨d.view, false⟩, { file with Name := name })⟩

/-- Three decoders that can be told apart by the `Name` they write. -/
def stampParsers (ρ : Type) : Parsers ρ Bool :=
  ⟨stampFrames ρ "ID3v2.2", stampFrames ρ "ID3v2.3", stampFrames ρ "ID3v2.4"⟩

/-- A reader type whose reads deliver, in order and without loss, the bytes
`pending r`: a read returns no more than asked for, what it returns is the
front of the pending bytes, and it returns something when asked for something
while bytes are pending. -/
structure Delivers {ρ : Type} [IOReader ρ] (pending : ρ → List Byte) : Prop where
  length_le : ∀ (r : ρ) (n : Nat), (IOReader.read r n).1.length ≤ n
  split : ∀ (r : ρ) (n : Nat), pending r = (IOReader.read r n).1 ++ pending (IOReader.read r n).2
  progress : ∀ (r : ρ) (n : Nat), 0 < n → pending r ≠ [] → (IOReader.read r n).1 ≠ []

/-! ## Lemmas on the readers -/

theorem readInto_zeros (l : List Byte) :
    readInto (List.replicate 10 (0 : Byte)) (l.take 10) =
      [l.getD 0 0, l.getD 1 0, l.getD 2 0, l.getD 3 0, l.getD 4 0, l.getD 5 0,
       l.getD 6 0, l.getD 7 0, l.getD 8 0, l.getD 9 0] := by
  rcases l with _ | ⟨b0, _ | ⟨b1, _ | ⟨b2, _ | ⟨b3, _ | ⟨b4, _ | ⟨b5, _ | ⟨b6, _ | ⟨b7,
    _ | ⟨b8, _ | ⟨b9, t⟩⟩⟩⟩⟩⟩⟩⟩⟩⟩ <;> rfl

theorem peekFill_stream (s : List Byte) :
    peekFill 3 4 (NewReader (ByteReader.mk s)) =
      ⟨s.take defaultBufSize, ⟨s.drop defaultBufSize⟩⟩ := by
  rcases s with _ | ⟨a, _ | ⟨b, _ | ⟨c, t⟩⟩⟩
  · rfl
  · rfl
  · rfl
  · simp [peekFill, NewReader, IOReader.read, defaultBufSize]

theorem isID3Tag_stream (s : List Byte) :
    isID3Tag (NewReader (ByteReader.mk s)) =
      (decide (s.take 3 = [73, 68, 51]),
        ⟨s.take defaultBufSize, ⟨s.drop defaultBufSize⟩⟩) := by
  unfold isID3Tag BufioReader.Peek
  rw [peekFill_stream]
  rcases s with _ | ⟨a, _ | ⟨b, _ | ⟨c, t⟩⟩⟩ <;> simp [defaultBufSize]

theorem zeroPaddedHeader_take (s : List Byte) :
    zeroPaddedHeader (s.take defaultBufSize) = zeroPaddedHeader s := by
  have h : ∀ i, i < 10 → (s.take defaultBufSize).getD i 0 = s.getD i 0 := by
    intro i hi
    simp only [List.getD_eq_getElem?_getD]
    rw [List.getElem?_take_of_lt (by simp only [defaultBufSize]; omega)]
  simp only [zeroPaddedHeader, h 3 (by omega), h 4 (by omega), h 5 (by omega), h 6 (by omega),
    h 7 (by omega), h 8 (by omega), h 9 (by omega)]

theorem parseID3v2Header_buffered (file : File) (b : BufioReader ByteReader)
    (hb : b.buf ≠ []) :
    parseID3v2Header file b =
      some ({ file with Header := zeroPaddedHeader b.buf }, ⟨b.buf.drop 10, b.rd⟩) := by
  have hread : IOReader.read b 10 =
      (b.buf.take 10, (⟨b.buf.drop 10, b.rd⟩ : BufioReader ByteReader)) := by
    show BufioReader.Read b 10 = _
    unfold BufioReader.Read
    simp [hb]
  unfold parseID3v2Header
  rw [hread]
  simp only [readInto_zeros]
  rfl

theorem take_bufSize_ne_nil (s : List Byte) (h : s.take 3 = [73, 68, 51]) :
    s.take defaultBufSize ≠ [] := by
  rcases s with _ | ⟨a, t⟩
  · simp at h
  · simp [defaultBufSize]

/-- The header decoding step of `Read` on a stream that starts with `ID3`. -/
theorem parseID3v2Header_stream (file : File) (s : List Byte)
    (h : s.take 3 = [73, 68, 51]) :
    parseID3v2Header file (isID3Tag (NewReader (ByteReader.mk s))).2 =
      some ({ file with Header := zeroPaddedHeader s },
        ⟨(s.take defaultBufSize).drop 10, ⟨s.drop defaultBufSize⟩⟩) := by
  have hp := parseID3v2Header_buffered file
    (⟨s.take defaultBufSize, ⟨s.drop defaultBufSize⟩⟩ : BufioReader ByteReader)
    (take_bufSize_ne_nil s h)
  simp only [isID3Tag_stream, hp, zeroPaddedHeader_take]

theorem Read_absent {σ : Type} (ps : Parsers ByteReader σ) (fuel : Nat) (s : List Byte)
    (h : s.take 3 ≠ [73, 68, 51]) :
    Read ps fuel (ByteReader.mk s) = ⟨Outcome.absent, [], ⟨s.drop defaultBufSize⟩⟩ := by
  unfold Read
  simp only [isID3Tag_stream, h, decide_False]

theorem Read_tagged {σ : Type} (ps : Parsers ByteReader σ) (fuel : Nat) (s : List Byte)
    (h : s.take 3 = [73, 68, 51]) :
    Read ps fuel (ByteReader.mk s) =
      match selectVariant (zeroPaddedHeader s).Version with
      | none =>
        ⟨Outcome.panicked
          ("Unrecognized ID3v2 version: " ++ toString (zeroPaddedHeader s).Version), [],
          ⟨s.drop defaultBufSize⟩⟩
      | some v =>
        match frameLoop (ps.get v) v fuel ((ps.get v).New (boundedView s))
            { File.new with Header := zeroPaddedHeader s } with
        | (true, parser', file', calls) =>
          ⟨Outcome.record file', Event.construct v (boundedView s) :: calls,
            parser'.view.rd.R.rd⟩
        | (false, parser', _, calls) =>
          ⟨Outcome.unfinished, Event.construct v (boundedView s) :: calls,
            parser'.view.rd.R.rd⟩ := by
  have hp := parseID3v2Header_buffered File.new
    (⟨s.take defaultBufSize, ⟨s.drop defaultBufSize⟩⟩ : BufioReader ByteReader)
    (take_bufSize_ne_nil s h)
  unfold Read
  simp only [isID3Tag_stream, h, decide_True, hp, zeroPaddedHeader_take, boundedView]
  cases selectVariant (zeroPaddedHeader s).Version with
  | none => rfl
  | some v =>
    dsimp only
    generalize frameLoop (ps.get v) v fuel _ _ = r
    rcases r with ⟨_ | _, p, f, c⟩ <;> rfl

theorem delivers_byteReader : Delivers (fun r : ByteReader => r.rest) where
  length_le r n := by
    show (r.rest.take n).length ≤ n
    simp
  split r n := by
    show r.rest = r.rest.take n ++ r.rest.drop n
    simp
  progress r n hn hr := by
    show r.rest.take n ≠ []
    cases hrest : r.rest with
    | nil => exact absurd hrest hr
    | cons a t =>
      cases n with
      | zero => omega
      | succ m => simp

theorem delivers_bufio {ρ : Type} [IOReader ρ] {pending : ρ → List Byte}
    (h : Delivers pending) :
    Delivers (fun b : BufioReader ρ => b.buf ++ pending b.rd) where
  length_le b n := by
    show (BufioReader.Read b n).1.length ≤ n
    unfold BufioReader.Read
    split_ifs with h0 he hbig
    · simp
    · exact h.length_le b.rd n
    · simp
    · simp
  split b n := by
    show b.buf ++ pending b.rd
      = (BufioReader.Read b n).1 ++ ((BufioReader.Read b n).2.buf ++ pending (BufioReader.Read b n).2.rd)
    unfold BufioReader.Read
    split_ifs with h0 he hbig
    · simp
    · have hb : b.buf = [] := by simpa using he
      simpa [hb] using h.split b.rd n
    · have hb : b.buf = [] := by simpa using he
      have hs := h.split b.rd defaultBufSize
      simp only [hb, List.nil_append]
      rw [← List.append_assoc, List.take_append_drop]
      exact hs
    · rw [← List.append_assoc, List.take_append_drop]
  progress b n hn hp := by
    show (BufioReader.Read b n).1 ≠ []
    unfold BufioReader.Read
    split_ifs with h0 he hbig
    · omega
    · have hb : b.buf = [] := by simpa using he
      exact h.progress b.rd n hn (by simpa [hb] using hp)
    · have hb : b.buf = [] := by simpa using he
      have hne := h.progress b.rd defaultBufSize (by decide) (by simpa [hb] using hp)
      intro hnil
      apply hne
      have : (IOReader.read b.rd defaultBufSize).1.take n = [] := hnil
      cases hbs : (IOReader.read b.rd defaultBufSize).1 with
      | nil => rfl
      | cons a t =>
        rw [hbs] at this
        cases n with
        | zero => omega
        | succ m => simp at this
    · intro hnil
      have : b.buf.take n = [] := hnil
      cases hbs : b.buf with
      | nil => simp [hbs] at he
      | cons a t =>
        rw [hbs] at this
        cases n with
        | zero => omega
        | succ m => simp at this


theorem delivers_limited {ρ : Type} [IOReader ρ] {pending : ρ → List Byte}
    (h : Delivers pending) :
    Delivers (fun l : LimitedReader ρ => (pending l.R).take l.N.toNat) where
  length_le l n := by
    show (LimitedReader.Read l n).1.length ≤ n
    unfold LimitedReader.Read
    split_ifs with h0 hlt
    · simp
    · have := h.length_le l.R l.N.toNat
      show (IOReader.read l.R l.N.toNat).1.length ≤ n
      omega
    · exact h.length_le l.R n
  split l n := by
    show (pending l.R).take l.N.toNat
      = (LimitedReader.Read l n).1
        ++ (pending (LimitedReader.Read l n).2.R).take (LimitedReader.Read l n).2.N.toNat
    unfold LimitedReader.Read
    split_ifs with h0 hlt
    · have : l.N.toNat = 0 := by omega
      simp [this]
    · have hle := h.length_le l.R l.N.toNat
      have hs := h.split l.R l.N.toNat
      show _ = (IOReader.read l.R l.N.toNat).1
        ++ (pending (IOReader.read l.R l.N.toNat).2).take
            (l.N - ((IOReader.read l.R l.N.toNat).1.length : Int)).toNat
      rw [hs, List.take_append_eq_append_take, List.take_of_length_le hle]
      congr 2
      omega
    · have hle := h.length_le l.R n
      have hs := h.split l.R n
      show _ = (IOReader.read l.R n).1
        ++ (pending (IOReader.read l.R n).2).take
            (l.N - ((IOReader.read l.R n).1.length : Int)).toNat
      have hn : (IOReader.read l.R n).1.length ≤ l.N.toNat := by omega
      rw [hs, List.take_append_eq_append_take, List.take_of_length_le hn]
      congr 2
      omega
  progress l n hn hp := by
    show (LimitedReader.Read l n).1 ≠ []
    have hN : 0 < l.N.toNat := by
      rcases Nat.eq_zero_or_pos l.N.toNat with h0 | h0
      · simp [h0] at hp
      · exact h0
    have hR : pending l.R ≠ [] := by
      intro hnil
      simp [hnil] at hp
    unfold LimitedReader.Read
    split_ifs with h0 hlt
    · omega
    · exact h.progress l.R l.N.toNat hN hR
    · exact h.progress l.R n hn hR

theorem readMany_split {ρ : Type} [IOReader ρ] {pending : ρ → List Byte}
    (h : Delivers pending) (ns : List Nat) (r : ρ) :
    pending r = (readMany ns r).1 ++ pending (readMany ns r).2 := by
  induction ns generalizing r with
  | nil => simp [readMany]
  | cons n ns ih =>
    simp only [readMany]
    rw [List.append_assoc, ← ih, ← h.split]

theorem readMany_all {ρ : Type} [IOReader ρ] {pending : ρ → List Byte}
    (h : Delivers pending) (ns : List Nat) (r : ρ)
    (hpos : ∀ n ∈ ns, 0 < n) (hlen : (pending r).length ≤ ns.length) :
    (readMany ns r).1 = pending r := by
  induction ns generalizing r with
  | nil =>
    have : pending r = [] := List.eq_nil_of_length_eq_zero (by simpa using hlen)
    simp [readMany, this]
  | cons n ns ih =>
    simp only [readMany]
    have hs := h.split r n
    by_cases hp : pending r = []
    · have h1 : (IOReader.read r n).1 = [] := by
        rw [hp] at hs
        exact (List.append_eq_nil.mp hs.symm).1
      have h2 : pending (IOReader.read r n).2 = [] := by
        rw [hp] at hs
        exact (List.append_eq_nil.mp hs.symm).2
      rw [ih _ (fun m hm => hpos m (List.mem_cons_of_mem _ hm)) (by simp [h2]), h1, h2, hp]
      rfl
    · have hne := h.progress r n (hpos n (List.mem_cons_self _ _)) hp
      have hl : 0 < (IOReader.read r n).1.length := List.length_pos.mpr hne
      have hlen' : (pending (IOReader.read r n).2).length ≤ ns.length := by
        have := congrArg List.length hs
        simp only [List.length_append, List.length_cons] at this hlen
        omega
      rw [ih _ (fun m hm => hpos m (List.mem_cons_of_mem _ hm)) hlen', ← hs]

theorem delivers_view : Delivers View.pending :=
  delivers_bufio (delivers_limited (delivers_bufio delivers_byteReader))

theorem drop_take_append_drop (s : List Byte) (k m : Nat) (h : k ≤ m) :
    (s.take m).drop k ++ s.drop m = s.drop k := by
  conv_rhs => rw [← List.take_append_drop m s]
  rw [List.drop_append_eq_append_drop]
  congr 1
  by_cases hm : m ≤ s.length
  · have : (s.take m).length = m := by simp [hm]
    rw [this, Nat.sub_eq_zero_of_le h]
    rfl
  · have : s.drop m = [] := List.drop_eq_nil_of_le (by omega)
    simp [this]

theorem pending_boundedView (s : List Byte) :
    View.pending (boundedView s) = (s.drop 10).take (zeroPaddedHeader s).Size.toNat := by
  simp only [View.pending, boundedView, NewReader, LimitReader, BufioReader.pending,
    List.nil_append]
  rw [drop_take_append_drop s 10 defaultBufSize (by decide)]


/-! ## Lemmas on the size decoder and the frame loop -/

theorem synchsafe_or_eq_add (a b c d : Nat) (hb : b < 128) (hc : c < 128) (hd : d < 128) :
    (((a <<< 21) ||| (b <<< 14) ||| (c <<< 7)) ||| d)
      = a * 2097152 + b * 16384 + c * 128 + d := by
  have h1 : 2 ^ 7 * c + d = 2 ^ 7 * c ||| d := Nat.mul_add_lt_is_or (by omega) c
  have h2 : 2 ^ 14 * b + (2 ^ 7 * c + d) = 2 ^ 14 * b ||| (2 ^ 7 * c + d) :=
    Nat.mul_add_lt_is_or (by omega) b
  have h3 : 2 ^ 21 * a + (2 ^ 14 * b + (2 ^ 7 * c + d))
      = 2 ^ 21 * a ||| (2 ^ 14 * b + (2 ^ 7 * c + d)) :=
    Nat.mul_add_lt_is_or (by omega) a
  simp only [Nat.shiftLeft_eq, Nat.lor_assoc]
  rw [Nat.mul_comm a, Nat.mul_comm b, Nat.mul_comm c, ← h1, ← h2, ← h3]
  omega

theorem toInt32_of_lt (n : Nat) (h : n < 2 ^ 31) : toInt32 n = (n : Int) := by
  have h' : n < 2147483648 := by simpa using h
  unfold toInt32
  have hm : n % 2 ^ 32 = n := Nat.mod_eq_of_lt (by norm_num; omega)
  rw [hm, if_pos h]

theorem parseSize_four (b0 b1 b2 b3 : Byte) :
    parseSize [b0, b1, b2, b3] =
      ((b0.val % 128 * 2097152 + b1.val % 128 * 16384 + b2.val % 128 * 128
        + b3.val % 128 : Nat) : Int) := by
  have hand : ∀ x : Nat, x &&& 0x7f = x % 128 := fun x =>
    Nat.and_pow_two_sub_one_eq_mod x 7
  have e := synchsafe_or_eq_add (b0.val % 128) (b1.val % 128) (b2.val % 128) (b3.val % 128)
    (Nat.mod_lt _ (by decide)) (Nat.mod_lt _ (by decide)) (Nat.mod_lt _ (by decide))
  have h0 : b0.val % 128 < 128 := Nat.mod_lt _ (by decide)
  have h1 : b1.val % 128 < 128 := Nat.mod_lt _ (by decide)
  have h2 : b2.val % 128 < 128 := Nat.mod_lt _ (by decide)
  have h3 : b3.val % 128 < 128 := Nat.mod_lt _ (by decide)
  show toInt32 _ = _
  simp only [hand]
  rw [e]
  exact toInt32_of_lt _ (by norm_num; omega)

theorem frameLoop_stop {ρ σ : Type} (p : ID3Parser ρ σ) (v : Variant) (fuel : Nat)
    (d : Decoder ρ σ) (file : File) (h : (p.HasFrame d).1 = false) :
    frameLoop p v (fuel + 1) d file
      = (true, (p.HasFrame d).2, file, [Event.hasFrame v false]) := by
  rcases hH : p.HasFrame d with ⟨b, d'⟩
  rw [hH] at h
  simp only at h
  subst h
  simp [frameLoop, hH]

theorem frameLoop_calls {ρ σ : Type} (p : ID3Parser ρ σ) (v : Variant) (fuel : Nat)
    (d : Decoder ρ σ) (file : File) :
    ∀ e ∈ (frameLoop p v fuel d file).2.2.2,
      e = Event.hasFrame v true ∨ e = Event.hasFrame v false ∨ e = Event.readFrame v := by
  induction fuel generalizing d file with
  | zero => simp [frameLoop]
  | succ n ih =>
    rcases hH : p.HasFrame d with ⟨_ | _, d'⟩
    · simp [frameLoop, hH]
    · rcases hR : p.ReadFrame d' file with ⟨d'', file'⟩
      have := ih d'' file'
      simp only [frameLoop, hH, hR]
      intro e he
      simp only [List.mem_cons] at he
      rcases he with he | he | he
      · exact Or.inl he
      · exact Or.inr (Or.inr he)
      · exact this e he

theorem Read_calls_tagged {σ : Type} (ps : Parsers ByteReader σ) (fuel : Nat) (s : List Byte)
    (v : Variant) (h : s.take 3 = [73, 68, 51])
    (hv : selectVariant (zeroPaddedHeader s).Version = some v) :
    ∃ calls, (Read ps fuel (ByteReader.mk s)).calls
        = Event.construct v (boundedView s) :: calls ∧
      ∀ e ∈ calls,
        e = Event.hasFrame v true ∨ e = Event.hasFrame v false ∨ e = Event.readFrame v := by
  rw [Read_tagged ps fuel s h]
  simp only [hv]
  have hc := frameLoop_calls (ps.get v) v fuel ((ps.get v).New (boundedView s))
    { File.new with Header := zeroPaddedHeader s }
  generalize frameLoop (ps.get v) v fuel _ _ = r at hc
  rcases r with ⟨_ | _, p, f, c⟩ <;> exact ⟨c, rfl, hc⟩

theorem selectVariant_version (v : Variant) : selectVariant v.version = some v := by
  cases v <;> rfl

theorem selectVariant_eq_some {x : Int} {v : Variant} (h : selectVariant x = some v) :
    x = v.version := by
  unfold selectVariant at h
  split_ifs at h with h2 h3 h4 <;> simp at h <;> subst h <;> assumption

/-! ## Lemmas on header decoding from any reader -/

theorem readInto_zeros_any (bs : List Byte) :
    readInto (List.replicate 10 (0 : Byte)) bs =
      [bs.getD 0 0, bs.getD 1 0, bs.getD 2 0, bs.getD 3 0, bs.getD 4 0, bs.getD 5 0,
       bs.getD 6 0, bs.getD 7 0, bs.getD 8 0, bs.getD 9 0] := by
  rcases bs with _ | ⟨b0, _ | ⟨b1, _ | ⟨b2, _ | ⟨b3, _ | ⟨b4, _ | ⟨b5, _ | ⟨b6, _ | ⟨b7,
    _ | ⟨b8, _ | ⟨b9, t⟩⟩⟩⟩⟩⟩⟩⟩⟩⟩ <;> rfl

theorem parseID3v2Header_any {ρ : Type} [IOReader ρ] (file : File) (reader : ρ) :
    parseID3v2Header file reader =
      some ({ file with Header := zeroPaddedHeader (IOReader.read reader 10).1 },
        (IOReader.read reader 10).2) := by
  unfold parseID3v2Header
  simp only [readInto_zeros_any]
  rfl

theorem zeroPaddedHeader_take_ge (s : List Byte) (m : Nat) (hm : 10 ≤ m) :
    zeroPaddedHeader (s.take m) = zeroPaddedHeader s := by
  have h : ∀ i, i < 10 → (s.take m).getD i 0 = s.getD i 0 := by
    intro i hi
    simp only [List.getD_eq_getElem?_getD]
    rw [List.getElem?_take_of_lt (by omega)]
  simp only [zeroPaddedHeader, h 3 (by omega), h 4 (by omega), h 5 (by omega), h 6 (by omega),
    h 7 (by omega), h 8 (by omega), h 9 (by omega)]

theorem read_after_peek (s : List Byte) :
    (IOReader.read (isID3Tag (NewReader (ByteReader.mk s))).2 10).1 = s.take 10 := by
  rw [isID3Tag_stream]
  show (BufioReader.Read _ 10).1 = _
  unfold BufioReader.Read
  rcases s with _ | ⟨a, t⟩
  · rfl
  · simp [defaultBufSize, List.take_take]

/-- The header decoding step of `Read`, on any stream. -/
theorem parseID3v2Header_peeked (file : File) (s : List Byte) :
    parseID3v2Header file (isID3Tag (NewReader (ByteReader.mk s))).2 =
      some ({ file with Header := zeroPaddedHeader s },
        (IOReader.read (isID3Tag (NewReader (ByteReader.mk s))).2 10).2) := by
  rw [parseID3v2Header_any, read_after_peek, zeroPaddedHeader_take_ge s 10 (Nat.le_refl 10)]

/-- Header decoding straight from a reader over the stream `s`. -/
theorem parseID3v2Header_direct (file : File) (s : List Byte) :
    parseID3v2Header file (ByteReader.mk s) =
      some ({ file with Header := zeroPaddedHeader s }, ByteReader.mk (s.drop 10)) := by
  rw [parseID3v2Header_any]
  show some (_, _) = _
  have : (IOReader.read (ByteReader.mk s) 10).1 = s.take 10 := rfl
  rw [this, zeroPaddedHeader_take_ge s 10 (Nat.le_refl 10)]
  rfl

theorem parseSize_bounds (data : List Byte) :
    0 ≤ parseSize data ∧ parseSize data < 2 ^ 28 := by
  rcases data with _ | ⟨b0, _ | ⟨b1, _ | ⟨b2, _ | ⟨b3, _ | ⟨b4, t⟩⟩⟩⟩⟩
  case cons.cons.cons.cons.nil =>
    rw [parseSize_four]
    constructor
    · exact Int.ofNat_nonneg _
    · have h0 : b0.val % 128 < 128 := Nat.mod_lt _ (by decide)
      have h1 : b1.val % 128 < 128 := Nat.mod_lt _ (by decide)
      have h2 : b2.val % 128 < 128 := Nat.mod_lt _ (by decide)
      have h3 : b3.val % 128 < 128 := Nat.mod_lt _ (by decide)
      norm_num
      omega
  all_goals
    show (0 : Int) ≤ 0 ∧ (0 : Int) < 2 ^ 28
    exact ⟨by decide, by decide⟩

theorem flagSet_eq_bit0 (x : Byte) (k : Nat) (hk : k ≤ 7) :
    flagSet x k = decide (x.val &&& 1 = 1) := by
  have hand : x.val &&& 1 = x.val % 2 := Nat.and_pow_two_sub_one_eq_mod x.val 1
  unfold flagSet
  rw [hand]
  rcases Nat.mod_two_eq_zero_or_one x.val with h | h
  · simp [h]
  · rw [h, Nat.shiftLeft_eq, Nat.one_mul]
    have hlt : 2 ^ k < 256 :=
      Nat.lt_of_le_of_lt (Nat.pow_le_pow_right (by decide) hk) (by decide)
    have hpos : 0 < 2 ^ k := Nat.pow_pos (by decide)
    rw [Nat.mod_eq_of_lt hlt]
    simp

/-! ## Lemmas on the shape and the length of the frame loop -/

theorem frameLoop_shape {ρ σ : Type} (p : ID3Parser ρ σ) (v : Variant) (fuel : Nat)
    (d : Decoder ρ σ) (file : File) :
    ∃ k, k ≤ fuel ∧
      (((frameLoop p v fuel d file).1 = true ∧
          (frameLoop p v fuel d file).2.2.2 = framePairs v k ++ [Event.hasFrame v false]) ∨
        ((frameLoop p v fuel d file).1 = false ∧ k = fuel ∧
          (frameLoop p v fuel d file).2.2.2 = framePairs v k)) := by
  induction fuel generalizing d file with
  | zero => exact ⟨0, Nat.le_refl 0, Or.inr ⟨rfl, rfl, rfl⟩⟩
  | succ n ih =>
    rcases hH : p.HasFrame d with ⟨_ | _, d'⟩
    · refine ⟨0, Nat.zero_le _, Or.inl ?_⟩
      simp [frameLoop, hH, framePairs]
    · rcases hR : p.ReadFrame d' file with ⟨d'', file'⟩
      obtain ⟨k, hk, h⟩ := ih d'' file'
      refine ⟨k + 1, Nat.succ_le_succ hk, ?_⟩
      simp only [frameLoop, hH, hR]
      rcases h with ⟨h1, h2⟩ | ⟨h1, h2, h3⟩
      · left
        exact ⟨h1, by simp only [h2, framePairs, List.cons_append]⟩
      · right
        exact ⟨h1, by omega, by simp only [h3, framePairs]⟩

theorem frameLoop_terminates {σ : Type} (p : ID3Parser ByteReader σ) (v : Variant)
    (hempty : ∀ d, View.pending d.view = [] → (p.HasFrame d).1 = false)
    (hstep : ∀ d file, View.pending d.view ≠ [] → (p.HasFrame d).1 = true →
      (View.pending (p.ReadFrame (p.HasFrame d).2 file).1.view).length
        < (View.pending d.view).length)
    (fuel : Nat) (d : Decoder ByteReader σ) (file : File)
    (hfuel : (View.pending d.view).length < fuel) :
    (frameLoop p v fuel d file).1 = true ∧
      (frameLoop p v fuel d file).2.2.2.count (Event.readFrame v)
        ≤ (View.pending d.view).length := by
  induction fuel generalizing d file with
  | zero => omega
  | succ n ih =>
    rcases hH : p.HasFrame d with ⟨_ | _, d'⟩
    · simp [frameLoop, hH]
    · have hne : View.pending d.view ≠ [] := by
        intro he
        have := hempty d he
        rw [hH] at this
        cases this
      have hs := hstep d file hne (by rw [hH])
      rw [hH] at hs
      rcases hR : p.ReadFrame d' file with ⟨d'', file'⟩
      rw [hR] at hs
      have hs' : (View.pending d''.view).length < (View.pending d.view).length := hs
      obtain ⟨h1, h2⟩ := ih d'' file' (by omega)
      simp only [frameLoop, hH, hR]
      refine ⟨h1, ?_⟩
      have hne : Event.readFrame (ρ := ByteReader) v ≠ Event.hasFrame v true := by
        intro h
        cases h
      rw [List.count_cons_of_ne hne, List.count_cons_self]
      exact Nat.succ_le_of_lt (Nat.lt_of_le_of_lt h2 hs')

theorem Read_tagged_some {σ : Type} (ps : Parsers ByteReader σ) (fuel : Nat) (s : List Byte)
    (v : Variant) (h : s.take 3 = [73, 68, 51])
    (hv : selectVariant (zeroPaddedHeader s).Version = some v) :
    Read ps fuel (ByteReader.mk s) =
      match frameLoop (ps.get v) v fuel ((ps.get v).New (boundedView s))
          { File.new with Header := zeroPaddedHeader s } with
      | (true, parser', file', calls) =>
        ⟨Outcome.record file', Event.construct v (boundedView s) :: calls,
          parser'.view.rd.R.rd⟩
      | (false, parser', _, calls) =>
        ⟨Outcome.unfinished, Event.construct v (boundedView s) :: calls,
          parser'.view.rd.R.rd⟩ := by
  rw [Read_tagged ps fuel s h]
  simp only [hv]

/-- What `hparse` says, given the magic: the record and the reader decoded. -/
theorem parse_stream_inv (s : List Byte) (file : File) (rd : BufioReader ByteReader)
    (hmagic : s.take 3 = [73, 68, 51])
    (hparse : parseID3v2Header File.new (isID3Tag (NewReader (ByteReader.mk s))).2
      = some (file, rd)) :
    file = { File.new with Header := zeroPaddedHeader s } ∧
      rd = ⟨(s.take defaultBufSize).drop 10, ⟨s.drop defaultBufSize⟩⟩ := by
  rw [parseID3v2Header_stream File.new s hmagic] at hparse
  have h := Prod.mk.inj (Option.some.inj hparse)
  exact ⟨h.1.symm, h.2.symm⟩

theorem byteFrames_step (d : Decoder ByteReader Unit) (file : File)
    (h : (byteFrames.HasFrame d).1 = true) :
    (View.pending (byteFrames.ReadFrame (byteFrames.HasFrame d).2 file).1.view).length
      < (View.pending d.view).length := by
  have hne : View.pending d.view ≠ [] := by
    have : decide (View.pending d.view ≠ []) = true := h
    simpa using this
  show (View.pending (IOReader.read d.view 1).2).length < _
  have hs := congrArg List.length (delivers_view.split d.view 1)
  have hp := delivers_view.progress d.view 1 (by decide) hne
  have hl : 0 < (IOReader.read d.view 1).1.length := List.length_pos.mpr hp
  rw [List.length_append] at hs
  omega

/-! ## Lemmas on `Read` over any reader -/

theorem Read_of_not_tag {ρ σ : Type} [IOReader ρ] (ps : Parsers ρ σ) (fuel : Nat) (r : ρ)
    (h : (isID3Tag (NewReader r)).1 = false) :
    Read ps fuel r = ⟨Outcome.absent, [], (isID3Tag (NewReader r)).2.rd⟩ := by
  rcases hi : isID3Tag (NewReader r) with ⟨_ | _, b⟩
  · simp only [Read, hi]
  · rw [hi] at h
    cases h

theorem Read_of_parse {ρ σ : Type} [IOReader ρ] (ps : Parsers ρ σ) (fuel : Nat) (r : ρ)
    (file : File) (rd : BufioReader ρ) (v : Variant)
    (htag : (isID3Tag (NewReader r)).1 = true)
    (hparse : parseID3v2Header File.new (isID3Tag (NewReader r)).2 = some (file, rd))
    (hsel : selectVariant file.Header.Version = some v) :
    Read ps fuel r
      = runDecoder (ps.get v) v fuel (NewReader (LimitReader rd file.Header.Size)) file := by
  rcases hi : isID3Tag (NewReader r) with ⟨_ | _, b⟩
  · rw [hi] at htag
    cases htag
  · rw [hi] at hparse
    simp only [Read, runDecoder, hi, hparse, hsel]

theorem Read_of_parse_none {ρ σ : Type} [IOReader ρ] (ps : Parsers ρ σ) (fuel : Nat) (r : ρ)
    (file : File) (rd : BufioReader ρ)
    (htag : (isID3Tag (NewReader r)).1 = true)
    (hparse : parseID3v2Header File.new (isID3Tag (NewReader r)).2 = some (file, rd))
    (hsel : selectVariant file.Header.Version = none) :
    Read ps fuel r
      = ⟨Outcome.panicked ("Unrecognized ID3v2 version: " ++ toString file.Header.Version),
          [], rd.rd⟩ := by
  rcases hi : isID3Tag (NewReader r) with ⟨_ | _, b⟩
  · rw [hi] at htag
    cases htag
  · rw [hi] at hparse
    simp only [Read, hi, hparse, hsel]

theorem runDecoder_calls {ρ σ : Type} (p : ID3Parser ρ σ) (v : Variant) (fuel : Nat)
    (view : View ρ) (file : File) :
    (runDecoder p v fuel view file).calls
      = Event.construct v view :: (frameLoop p v fuel (p.New view) file).2.2.2 := by
  unfold runDecoder
  generalize frameLoop p v fuel _ _ = x
  rcases x with ⟨_ | _, p', f, c⟩ <;> rfl

theorem runDecoder_outcome {ρ σ : Type} (p : ID3Parser ρ σ) (v : Variant) (fuel : Nat)
    (view : View ρ) (file : File) :
    (runDecoder p v fuel view file).outcome
      = if (frameLoop p v fuel (p.New view) file).1 = true
        then Outcome.record (frameLoop p v fuel (p.New view) file).2.2.1
        else Outcome.unfinished := by
  unfold runDecoder
  generalize frameLoop p v fuel _ _ = x
  rcases x with ⟨_ | _, p', f, c⟩ <;> rfl

/-! ## Lemmas on lawful readers with short reads -/

/-- The bytes a `ChunkReader` has yet to deliver (none when it delivers
nothing per call). -/
theorem delivers_chunkReader :
    Delivers (fun r : ChunkReader => if r.cap = 0 then [] else r.rest) where
  length_le r n := by
    show (r.rest.take (min n r.cap)).length ≤ n
    rw [List.length_take]
    omega
  split r n := by
    show (if r.cap = 0 then [] else r.rest)
      = r.rest.take (min n r.cap) ++ (if r.cap = 0 then [] else r.rest.drop (min n r.cap))
    by_cases hc : r.cap = 0
    · simp [hc]
    · simp [hc]
  progress r n hn hp := by
    show r.rest.take (min n r.cap) ≠ []
    by_cases hc : r.cap = 0
    · simp [hc] at hp
    · simp only [hc, if_false] at hp
      cases hrest : r.rest with
      | nil => exact absurd hrest hp
      | cons a t =>
        have hm : min n r.cap = (min n r.cap - 1) + 1 := by omega
        rw [hm]
        simp

theorem delivers_viewOver {ρ : Type} [IOReader ρ] {pending : ρ → List Byte}
    (h : Delivers pending) : Delivers (View.pendingOver pending) :=
  delivers_bufio (delivers_limited (delivers_bufio h))

theorem peekFill_spec {ρ : Type} [IOReader ρ] {pending : ρ → List Byte}
    (hD : Delivers pending) (n : Nat) (hn : n ≤ defaultBufSize) :
    ∀ (fuel : Nat) (b : BufioReader ρ), n < fuel + b.buf.length →
      b.buf.length ≤ defaultBufSize →
      (peekFill n fuel b).buf ++ pending (peekFill n fuel b).rd = b.buf ++ pending b.rd ∧
      (peekFill n fuel b).buf.length ≤ defaultBufSize ∧
      min n (b.buf ++ pending b.rd).length ≤ (peekFill n fuel b).buf.length := by
  intro fuel
  induction fuel with
  | zero =>
    intro b hf hb
    refine ⟨rfl, hb, ?_⟩
    show min n _ ≤ b.buf.length
    omega
  | succ k ih =>
    intro b hf hb
    unfold peekFill
    by_cases hc : b.buf.length < n ∧ b.buf.length < defaultBufSize
    · rw [if_pos hc]
      have hsplit := hD.split b.rd (defaultBufSize - b.buf.length)
      have hle := hD.length_le b.rd (defaultBufSize - b.buf.length)
      have hprog := hD.progress b.rd (defaultBufSize - b.buf.length) (by omega)
      rcases hr : IOReader.read b.rd (defaultBufSize - b.buf.length) with ⟨bs, rd'⟩
      rw [hr] at hsplit hle hprog
      simp only at hsplit hle hprog
      by_cases he : bs.isEmpty = true
      · simp only [he, if_true]
        have hbs : bs = [] := by simpa using he
        have hp : pending b.rd = [] := by
          by_contra hne
          exact hprog hne hbs
        have hp' : pending rd' = [] := by
          rw [hp, hbs] at hsplit
          simpa using hsplit.symm
        refine ⟨by rw [hp, hp'], hb, ?_⟩
        rw [hp, List.append_nil]
        exact Nat.min_le_right _ _
      · simp only [he]
        have hbs : bs ≠ [] := by simpa using he
        have hl : 0 < bs.length := List.length_pos.mpr hbs
        obtain ⟨h1, h2, h3⟩ := ih ⟨b.buf ++ bs, rd'⟩
          (by simp only [List.length_append]; omega)
          (by simp only [List.length_append]; omega)
        have e : (b.buf ++ bs) ++ pending rd' = b.buf ++ pending b.rd := by
          rw [List.append_assoc, ← hsplit]
        simp only at h1 h3
        rw [e] at h1 h3
        exact ⟨h1, h2, h3⟩
    · rw [if_neg hc]
      refine ⟨rfl, hb, ?_⟩
      have : n ≤ b.buf.length := by omega
      exact Nat.le_trans (Nat.min_le_left _ _) this

theorem isID3Tag_eq {ρ : Type} [IOReader ρ] (b : BufioReader ρ) :
    isID3Tag b
      = (decide ((peekFill 3 4 b).buf.take 3 = [73, 68, 51]), peekFill 3 4 b) := by
  unfold isID3Tag BufioReader.Peek
  generalize peekFill 3 (3 + 1) b = b'
  rcases b' with ⟨buf, rd⟩
  rcases buf with _ | ⟨x, _ | ⟨y, _ | ⟨z, t⟩⟩⟩ <;> simp

/-- The peek of `isID3Tag` on any lawful reader: all bytes stay pending in the
buffered reader, at most one buffer of them is taken from the wrapped reader,
at least the three inspected ones when there are that many, and the answer is
true exactly when the pending bytes start with `ID3`. -/
theorem isID3Tag_spec {ρ : Type} [IOReader ρ] {pending : ρ → List Byte}
    (hD : Delivers pending) (r : ρ) :
    BufioReader.pendingOver pending (isID3Tag (NewReader r)).2 = pending r ∧
    (isID3Tag (NewReader r)).2.buf.length ≤ defaultBufSize ∧
    min 3 (pending r).length ≤ (isID3Tag (NewReader r)).2.buf.length ∧
    ((isID3Tag (NewReader r)).1 = true ↔ (pending r).take 3 = [73, 68, 51]) := by
  obtain ⟨h1, h2, h3⟩ := peekFill_spec hD 3 (by decide) 4 (NewReader r)
    (by show 3 < 4 + 0; decide) (by show 0 ≤ defaultBufSize; decide)
  have h1' : (peekFill 3 4 (NewReader r)).buf ++ pending (peekFill 3 4 (NewReader r)).rd
      = pending r := h1
  have h3' : min 3 (pending r).length ≤ (peekFill 3 4 (NewReader r)).buf.length := h3
  rw [isID3Tag_eq]
  refine ⟨h1', h2, h3', ?_⟩
  have key : (peekFill 3 4 (NewReader r)).buf.take 3 = [73, 68, 51]
      ↔ (pending r).take 3 = [73, 68, 51] := by
    by_cases hl : 3 ≤ (peekFill 3 4 (NewReader r)).buf.length
    · rw [← h1', List.take_append_of_le_length hl]
    · have hs : (pending r).length < 3 := by omega
      constructor
      · intro h
        have := congrArg List.length h
        simp at this
        omega
      · intro h
        have := congrArg List.length h
        simp at this
        omega
  simpa using key

theorem zeroPaddedHeader_front (bs s : List Byte) (t : List Byte) (hs : s = bs ++ t)
    (hfirst : min 10 s.length ≤ bs.length) :
    zeroPaddedHeader bs = zeroPaddedHeader s := by
  have h : ∀ i, i < 10 → bs.getD i 0 = s.getD i 0 := by
    intro i hi
    simp only [List.getD_eq_getElem?_getD]
    by_cases hib : i < bs.length
    · rw [hs, List.getElem?_append_left hib]
    · have ht : t = [] := by
        have hl := congrArg List.length hs
        rw [List.length_append] at hl
        exact List.eq_nil_of_length_eq_zero (by omega)
      rw [hs, ht, List.append_nil]
  simp only [zeroPaddedHeader, h 3 (by omega), h 4 (by omega), h 5 (by omega), h 6 (by omega),
    h 7 (by omega), h 8 (by omega), h 9 (by omega)]

/-- Header decoding in `Read` on a lawful reader whose first read, asked for a
full buffer, returns at least the first 10 bytes (all bytes of a shorter
stream). -/
theorem header_first_read {ρ : Type} [IOReader ρ] {pending : ρ → List Byte}
    (hD : Delivers pending) (r : ρ) (file : File)
    (hmagic : (pending r).take 3 = [73, 68, 51])
    (hfirst : min 10 (pending r).length ≤ (IOReader.read r defaultBufSize).1.length) :
    (isID3Tag (NewReader r)).1 = true ∧
    parseID3v2Header file (isID3Tag (NewReader r)).2 =
      some ({ file with Header := zeroPaddedHeader (pending r) },
        ⟨(IOReader.read r defaultBufSize).1.drop 10, (IOReader.read r defaultBufSize).2⟩) ∧
    IOReader.read (isID3Tag (NewReader r)).2 10 =
      ((pending r).take 10,
        ⟨(IOReader.read r defaultBufSize).1.drop 10, (IOReader.read r defaultBufSize).2⟩) ∧
    BufioReader.pendingOver pending
      ⟨(IOReader.read r defaultBufSize).1.drop 10, (IOReader.read r defaultBufSize).2⟩
      = (pending r).drop 10 := by
  have hsplit := hD.split r defaultBufSize
  have hslen : 3 ≤ (pending r).length := by
    have := congrArg List.length hmagic
    simp at this
    omega
  rcases hr : IOReader.read r defaultBufSize with ⟨bs, r1⟩
  rw [hr] at hsplit hfirst
  simp only at hsplit hfirst ⊢
  have hbl : 3 ≤ bs.length := by omega
  have hbne : bs ≠ [] := by
    intro h
    rw [h] at hbl
    simp at hbl
  have hpeek : peekFill 3 4 (NewReader r) = ⟨bs, r1⟩ := by
    have e : IOReader.read r (defaultBufSize - 0) = (bs, r1) := hr
    have hne : bs.isEmpty = false := by simpa using hbne
    simp only [peekFill, NewReader, List.length_nil, e, hne, List.nil_append]
    simp [defaultBufSize, hbl]
  have htake3 : bs.take 3 = [73, 68, 51] := by
    rw [← hmagic, hsplit, List.take_append_of_le_length hbl]
  have htag : isID3Tag (NewReader r) = (true, ⟨bs, r1⟩) := by
    rw [isID3Tag_eq, hpeek]
    simp [htake3]
  have hread : IOReader.read (⟨bs, r1⟩ : BufioReader ρ) 10
      = (bs.take 10, ⟨bs.drop 10, r1⟩) := by
    show BufioReader.Read _ 10 = _
    unfold BufioReader.Read
    simp [hbne]
  have htake10 : bs.take 10 = (pending r).take 10 := by
    by_cases h10 : 10 ≤ bs.length
    · rw [hsplit, List.take_append_of_le_length h10]
    · have hl := congrArg List.length hsplit
      rw [List.length_append] at hl
      have ht : pending r1 = [] := List.eq_nil_of_length_eq_zero (by omega)
      rw [hsplit, ht, List.append_nil]
  rw [htag]
  refine ⟨rfl, ?_, ?_, ?_⟩
  · rw [parseID3v2Header_any, hread]
    simp only
    rw [zeroPaddedHeader_take_ge bs 10 (Nat.le_refl 10),
      zeroPaddedHeader_front bs (pending r) (pending r1) hsplit hfirst]
  · rw [hread, htake10]
  · show bs.drop 10 ++ pending r1 = _
    rw [hsplit]
    by_cases h10 : 10 ≤ bs.length
    · rw [List.drop_append_of_le_length h10]
    · have hl := congrArg List.length hsplit
      rw [List.length_append] at hl
      have ht : pending r1 = [] := List.eq_nil_of_length_eq_zero (by omega)
      rw [ht, List.append_nil, List.append_nil]

/-! ## Theorems on the claims -/

/-- C1 (the code differs from the claim): on the stream `ID3`, 3, 0, 0x80, 0, 0, 7, 104,
whose byte 5 has bit 7 set and no other bit, the header `parseID3v2Header`
decodes inside `Read` has version 3 and size 1000 but `Unsynchronization` false;
with byte 5 equal to 0x01, whose bits 7 to 4 are all clear, all four flags are
true. -/
theorem C1_flags_at_0x80_and_0x01 :
    (parseID3v2Header File.new
        (isID3Tag (NewReader (ByteReader.mk [73, 68, 51, 3, 0, 0x80, 0, 0, 7, 104]))).2).map
        (fun r => r.1.Header) = some ⟨3, 0, false, false, false, false, 1000⟩ ∧
    (parseID3v2Header File.new
        (isID3Tag (NewReader (ByteReader.mk [73, 68, 51, 3, 0, 0x01, 0, 0, 7, 104]))).2).map
        (fun r => r.1.Header) = some ⟨3, 0, true, true, true, true, 1000⟩ := by
  constructor <;> decide

/-- C2: `Read` returns the absent result exactly when the stream has fewer than
3 bytes or its first three bytes are not `I`, `D`, `3`; the outcome is then
`absent` (not a panic, and for any fuel), the empty stream and the streams of
length 1 and 2 included. -/
theorem C2_Read_absent_iff {σ : Type} (ps : Parsers ByteReader σ) (fuel : Nat)
    (s : List Byte) :
    (Read ps fuel (ByteReader.mk s)).outcome = Outcome.absent ↔
      (s.length < 3 ∨ s.take 3 ≠ [73, 68, 51]) := by
  constructor
  · intro h
    right
    intro hm
    rw [Read_tagged ps fuel s hm] at h
    cases hv : selectVariant (zeroPaddedHeader s).Version with
    | none => simp [hv] at h
    | some v =>
      simp only [hv] at h
      generalize frameLoop (ps.get v) v fuel _ _ = r at h
      rcases r with ⟨_ | _, p, f, c⟩ <;> simp at h
  · intro h
    have hne : s.take 3 ≠ [73, 68, 51] := by
      rcases h with h | h
      · intro hm
        have := congrArg List.length hm
        simp at this
        omega
      · exact h
    rw [Read_absent ps fuel s hne]

/-- C3: on a stream that starts with `ID3` and whose decoded version is not 2,
3 or 4, `Read` panics with the message naming the version, returns no record,
and neither constructs nor calls a frame decoder. -/
theorem C3_unsupported_version {σ : Type} (ps : Parsers ByteReader σ) (fuel : Nat)
    (s : List Byte) (file : File) (rd : BufioReader ByteReader)
    (hmagic : s.take 3 = [73, 68, 51])
    (hparse : parseID3v2Header File.new (isID3Tag (NewReader (ByteReader.mk s))).2
      = some (file, rd))
    (h2 : file.Header.Version ≠ 2) (h3 : file.Header.Version ≠ 3)
    (h4 : file.Header.Version ≠ 4) :
    (Read ps fuel (ByteReader.mk s)).outcome =
        Outcome.panicked ("Unrecognized ID3v2 version: " ++ toString file.Header.Version) ∧
      (Read ps fuel (ByteReader.mk s)).calls = [] ∧
      ∀ f, (Read ps fuel (ByteReader.mk s)).outcome ≠ Outcome.record f := by
  rw [parseID3v2Header_stream File.new s hmagic] at hparse
  have hf : file.Header = zeroPaddedHeader s := by
    have := (Prod.mk.inj (Option.some.inj hparse)).1
    rw [← this]
  rw [hf] at h2 h3 h4
  have hsel : selectVariant (zeroPaddedHeader s).Version = none := by
    simp [selectVariant, h2, h3, h4]
  rw [Read_tagged ps fuel s hmagic, hf]
  simp [hsel]

/-- C3, at the stream `ID3`, 5, 0, 0, 0, 0, 0, 0. -/
theorem C3_unsupported_version_witness :
    (Read (noFrameParsers ByteReader) 7
        (ByteReader.mk [73, 68, 51, 5, 0, 0, 0, 0, 0, 0])).outcome =
        Outcome.panicked ("Unrecognized ID3v2 version: " ++ toString (5 : Int)) ∧
      (Read (noFrameParsers ByteReader) 7
        (ByteReader.mk [73, 68, 51, 5, 0, 0, 0, 0, 0, 0])).calls = [] ∧
      ∀ f, (Read (noFrameParsers ByteReader) 7
        (ByteReader.mk [73, 68, 51, 5, 0, 0, 0, 0, 0, 0])).outcome ≠ Outcome.record f :=
  C3_unsupported_version (noFrameParsers ByteReader) 7 [73, 68, 51, 5, 0, 0, 0, 0, 0, 0]
    ⟨⟨5, 0, false, false, false, false, 0⟩, "", "", "", "", "", "", "", ""⟩ ⟨[], ⟨[]⟩⟩
    (by decide) (by decide) (by decide) (by decide) (by decide)

/-- C4 (counterexample): on the 3-byte stream `ID3` the call of `Read` panics
with the unsupported-version failure for version 0; it does not return. -/
theorem C4_ID3_alone_panics :
    (Read (noFrameParsers ByteReader) 1 (ByteReader.mk [73, 68, 51])).outcome =
      Outcome.panicked "Unrecognized ID3v2 version: 0" := by
  decide

/-- C8 (counterexample): on the 5-byte stream `ABCDE`, which does not start with
`ID3`, the call of `Read` returns the absent result having taken all 5 bytes
(more than 3) from the caller's reader, and a read of 3 bytes issued on that
reader afterwards obtains nothing, not the bytes `ABC` that were inspected. -/
theorem C8_peek_drains_caller_reader :
    (Read (noFrameParsers ByteReader) 0 (ByteReader.mk [65, 66, 67, 68, 69])).outcome
      = Outcome.absent ∧
    ([65, 66, 67, 68, 69] : List Byte).length
      - (Read (noFrameParsers ByteReader) 0
          (ByteReader.mk [65, 66, 67, 68, 69])).reader.rest.length = 5 ∧
    (IOReader.read (Read (noFrameParsers ByteReader) 0
        (ByteReader.mk [65, 66, 67, 68, 69])).reader 3).1 = [] ∧
    (IOReader.read (Read (noFrameParsers ByteReader) 0
        (ByteReader.mk [65, 66, 67, 68, 69])).reader 3).1 ≠ [65, 66, 67] := by
  decide

theorem encodeSynchsafe_val (n : Nat) :
    encodeSynchsafe n =
      [Fin.ofNat (n / 2097152 % 128), Fin.ofNat (n / 16384 % 128),
       Fin.ofNat (n / 128 % 128), Fin.ofNat (n % 128)] := by
  have hand : ∀ x : Nat, x &&& 0x7f = x % 128 := fun x =>
    Nat.and_pow_two_sub_one_eq_mod x 7
  simp only [encodeSynchsafe, hand, Nat.shiftRight_eq_div_pow]

theorem ofNat_val_of_lt (x : Nat) (h : x < 256) : (Fin.ofNat x : Byte).val = x := by
  show x % 256 = x
  exact Nat.mod_eq_of_lt h

set_option maxRecDepth 20000 in
theorem high_bit_clear_lt : ∀ b : Byte, b.val &&& 0x80 = 0 → b.val < 128 := by
  decide

/-- C11: the size decoder `parseSize` and the standard synchsafe encoding are
inverse to each other: encoding the decoded value of four bytes with the high
bit clear gives the four bytes back, and decoding the encoding of a value
below `2^28` gives the value back. -/
theorem C11_synchsafe_roundtrip (b0 b1 b2 b3 : Byte) (n : Nat)
    (h0 : b0.val &&& 0x80 = 0) (h1 : b1.val &&& 0x80 = 0) (h2 : b2.val &&& 0x80 = 0)
    (h3 : b3.val &&& 0x80 = 0) (hn : n < 2 ^ 28) :
    encodeSynchsafe (parseSize [b0, b1, b2, b3]).toNat = [b0, b1, b2, b3] ∧
    parseSize (encodeSynchsafe n) = (n : Int) := by
  have l0 := high_bit_clear_lt b0 h0
  have l1 := high_bit_clear_lt b1 h1
  have l2 := high_bit_clear_lt b2 h2
  have l3 := high_bit_clear_lt b3 h3
  constructor
  · rw [parseSize_four, Int.toNat_ofNat, encodeSynchsafe_val]
    have e0 : Fin.ofNat ((b0.val % 128 * 2097152 + b1.val % 128 * 16384 + b2.val % 128 * 128
        + b3.val % 128) / 2097152 % 128) = b0 := by
      apply Fin.ext
      rw [ofNat_val_of_lt _ (by omega)]
      omega
    have e1 : Fin.ofNat ((b0.val % 128 * 2097152 + b1.val % 128 * 16384 + b2.val % 128 * 128
        + b3.val % 128) / 16384 % 128) = b1 := by
      apply Fin.ext
      rw [ofNat_val_of_lt _ (by omega)]
      omega
    have e2 : Fin.ofNat ((b0.val % 128 * 2097152 + b1.val % 128 * 16384 + b2.val % 128 * 128
        + b3.val % 128) / 128 % 128) = b2 := by
      apply Fin.ext
      rw [ofNat_val_of_lt _ (by omega)]
      omega
    have e3 : Fin.ofNat ((b0.val % 128 * 2097152 + b1.val % 128 * 16384 + b2.val % 128 * 128
        + b3.val % 128) % 128) = b3 := by
      apply Fin.ext
      rw [ofNat_val_of_lt _ (by omega)]
      omega
    rw [e0, e1, e2, e3]
  · have hn' : n < 268435456 := by simpa using hn
    rw [encodeSynchsafe_val, parseSize_four]
    rw [ofNat_val_of_lt _ (by omega), ofNat_val_of_lt _ (by omega),
      ofNat_val_of_lt _ (by omega), ofNat_val_of_lt _ (by omega)]
    congr 1
    omega

/-- C11, at the bytes 0, 0, 7, 104 and the value 1000. -/
theorem C11_synchsafe_roundtrip_witness :
    encodeSynchsafe (parseSize [0, 0, 7, 104]).toNat = [0, 0, 7, 104] ∧
    parseSize (encodeSynchsafe 1000) = ((1000 : Nat) : Int) :=
  C11_synchsafe_roundtrip 0 0 7 104 1000 (by decide) (by decide) (by decide) (by decide)
    (by decide)

/-- C12: the size decoder returns a value in `0 .. 2^28 - 1` for any bytes,
so on every stream that starts with `ID3`, whatever its length and its bytes
6 to 9, the decoded `Size` satisfies `0 <= Size < 2^28` (inside `int32`), and
the limit of the view `Read` builds for the decoder is that non-negative
`Size`. -/
theorem C12_size_bounds {σ : Type} (ps : Parsers ByteReader σ) (fuel : Nat)
    (s : List Byte) (hmagic : s.take 3 = [73, 68, 51]) :
    (∀ data : List Byte, 0 ≤ parseSize data ∧ parseSize data < 2 ^ 28) ∧
    ∃ file rd,
      parseID3v2Header File.new (isID3Tag (NewReader (ByteReader.mk s))).2
        = some (file, rd) ∧
      0 ≤ file.Header.Size ∧ file.Header.Size < 2 ^ 28 ∧ file.Header.Size < 2 ^ 31 ∧
      ∀ v : Variant, file.Header.Version = v.version →
        ∃ view calls,
          (Read ps fuel (ByteReader.mk s)).calls = Event.construct v view :: calls ∧
          view.rd.N = file.Header.Size ∧ 0 ≤ view.rd.N := by
  have hb := parseSize_bounds [s.getD 6 0, s.getD 7 0, s.getD 8 0, s.getD 9 0]
  have hs : (zeroPaddedHeader s).Size
      = parseSize [s.getD 6 0, s.getD 7 0, s.getD 8 0, s.getD 9 0] := rfl
  refine ⟨parseSize_bounds, _, _, parseID3v2Header_stream File.new s hmagic, ?_, ?_, ?_, ?_⟩
  · exact hb.1
  · exact hb.2
  · exact lt_trans hb.2 (by decide)
  · intro v hver
    have hsel : selectVariant (zeroPaddedHeader s).Version = some v := by
      have : (zeroPaddedHeader s).Version = v.version := hver
      rw [this]
      exact selectVariant_version v
    obtain ⟨calls, hcalls, _⟩ := Read_calls_tagged ps fuel s v hmagic hsel
    exact ⟨boundedView s, calls, hcalls, rfl, hb.1⟩

/-- C12, at the stream `ID3`, 3, 0, 0, 255, 255, 255, 255, whose size bytes
all have the high bit set: the size is `2^28 - 1`. -/
theorem C12_size_bounds_witness :
    ∃ file rd,
      parseID3v2Header File.new
        (isID3Tag (NewReader (ByteReader.mk [73, 68, 51, 3, 0, 0, 255, 255, 255, 255]))).2
        = some (file, rd) ∧
      0 ≤ file.Header.Size ∧ file.Header.Size < 2 ^ 28 := by
  obtain ⟨_, file, rd, hp, h0, h1, _, _⟩ :=
    C12_size_bounds (noFrameParsers ByteReader) 1
      [73, 68, 51, 3, 0, 0, 255, 255, 255, 255] (by decide)
  exact ⟨file, rd, hp, h0, h1⟩

/-- C16: on a stream that starts with `ID3` and holds fewer than 10 bytes,
`parseID3v2Header` decodes the same header as on that stream padded with zero
bytes up to length 10. -/
theorem C16_zero_filled_buffer (s : List Byte) (hmagic : s.take 3 = [73, 68, 51])
    (hlen : s.length < 10) :
    (s ++ List.replicate (10 - s.length) (0 : Byte)).length = 10 ∧
    ∃ file rd file' rd',
      parseID3v2Header File.new (isID3Tag (NewReader (ByteReader.mk s))).2
        = some (file, rd) ∧
      parseID3v2Header File.new
        (isID3Tag (NewReader (ByteReader.mk
          (s ++ List.replicate (10 - s.length) (0 : Byte))))).2 = some (file', rd') ∧
      file.Header = file'.Header := by
  have hget : ∀ i, (s ++ List.replicate (10 - s.length) (0 : Byte)).getD i 0 = s.getD i 0 := by
    intro i
    simp only [List.getD_eq_getElem?_getD]
    by_cases hi : i < s.length
    · rw [List.getElem?_append_left hi]
    · have hr : s[i]? = none := List.getElem?_eq_none (by omega)
      rw [List.getElem?_append_right (by omega), hr, List.getElem?_replicate]
      split_ifs <;> rfl
  refine ⟨by simp; omega, _, _, _, _, parseID3v2Header_stream File.new s hmagic,
    parseID3v2Header_peeked File.new _, ?_⟩
  show zeroPaddedHeader s = zeroPaddedHeader _
  simp only [zeroPaddedHeader, hget]

/-- C16, at the 5-byte stream `ID3`, 3, 0: version 3, revision 0, all flags
false, size 0. -/
theorem C16_zero_filled_buffer_witness :
    ∃ file rd,
      parseID3v2Header File.new (isID3Tag (NewReader (ByteReader.mk [73, 68, 51, 3, 0]))).2
        = some (file, rd) ∧
      file.Header = ⟨3, 0, false, false, false, false, 0⟩ := by
  obtain ⟨_, file, rd, file', rd', hp, hp', he⟩ :=
    C16_zero_filled_buffer [73, 68, 51, 3, 0] (by decide) (by decide)
  refine ⟨file, rd, hp, ?_⟩
  have e : parseID3v2Header File.new
      (isID3Tag (NewReader (ByteReader.mk
        ([73, 68, 51, 3, 0] ++ List.replicate (10 - ([73, 68, 51, 3, 0] : List Byte).length)
          (0 : Byte))))).2
      = some (⟨⟨3, 0, false, false, false, false, 0⟩, "", "", "", "", "", "", "", ""⟩,
          ⟨[], ⟨[]⟩⟩) := by decide
  rw [e] at hp'
  rw [he, ← (Prod.mk.inj (Option.some.inj hp')).1]

/-- C17: for every stream, read straight from the stream or through the
buffered reader of `Read`, the four flags `parseID3v2Header` produces are equal
to one another, and each is true exactly when bit 0 of byte 5 is set (byte 5
being zero when the stream has no such byte). -/
theorem C17_flags_follow_bit0 (file : File) (s : List Byte) :
    (∃ file' rd',
      parseID3v2Header file (isID3Tag (NewReader (ByteReader.mk s))).2 = some (file', rd') ∧
      file'.Header.Extended = file'.Header.Unsynchronization ∧
      file'.Header.Experimental = file'.Header.Unsynchronization ∧
      file'.Header.Footer = file'.Header.Unsynchronization ∧
      (file'.Header.Unsynchronization = true ↔ (s.getD 5 0).val &&& 0x01 = 1)) ∧
    (∃ file' rd',
      parseID3v2Header file (ByteReader.mk s) = some (file', rd') ∧
      file'.Header.Extended = file'.Header.Unsynchronization ∧
      file'.Header.Experimental = file'.Header.Unsynchronization ∧
      file'.Header.Footer = file'.Header.Unsynchronization ∧
      (file'.Header.Unsynchronization = true ↔ (s.getD 5 0).val &&& 0x01 = 1)) := by
  have h7 := flagSet_eq_bit0 (s.getD 5 0) 7 (by decide)
  have h6 := flagSet_eq_bit0 (s.getD 5 0) 6 (by decide)
  have h5 := flagSet_eq_bit0 (s.getD 5 0) 5 (by decide)
  have h4 := flagSet_eq_bit0 (s.getD 5 0) 4 (by decide)
  have key : (zeroPaddedHeader s).Extended = (zeroPaddedHeader s).Unsynchronization ∧
      (zeroPaddedHeader s).Experimental = (zeroPaddedHeader s).Unsynchronization ∧
      (zeroPaddedHeader s).Footer = (zeroPaddedHeader s).Unsynchronization ∧
      ((zeroPaddedHeader s).Unsynchronization = true ↔ (s.getD 5 0).val &&& 0x01 = 1) := by
    simp only [zeroPaddedHeader, h7, h6, h5, h4, decide_eq_true_eq, and_self]
  exact ⟨⟨_, _, parseID3v2Header_peeked file s, key⟩,
    ⟨_, _, parseID3v2Header_direct file s, key⟩⟩

/-- C18: for every reader, whatever the read delivers (nothing, fewer than 10
bytes, 10 bytes), the buffer of `parseID3v2Header` has 10 entries, so the
indices 3, 4, 5 and the slice from 6 are in bounds and the function returns;
it never ends in an out-of-range panic. -/
theorem C18_header_indices_in_bounds {ρ : Type} [IOReader ρ] (file : File) (reader : ρ) :
    (∀ bs : List Byte,
      (readInto (List.replicate 10 (0 : Byte)) bs).length = 10 ∧
      ((readInto (List.replicate 10 (0 : Byte)) bs)[3]?).isSome = true ∧
      ((readInto (List.replicate 10 (0 : Byte)) bs)[4]?).isSome = true ∧
      ((readInto (List.replicate 10 (0 : Byte)) bs)[5]?).isSome = true ∧
      (sliceFrom (readInto (List.replicate 10 (0 : Byte)) bs) 6).isSome = true) ∧
    (∃ file' reader', parseID3v2Header file reader = some (file', reader')) ∧
    (parseID3v2Header file (ByteReader.mk []) ≠ none) := by
  refine ⟨?_, ⟨_, _, parseID3v2Header_any file reader⟩, ?_⟩
  · intro bs
    rw [readInto_zeros_any]
    exact ⟨rfl, rfl, rfl, rfl, rfl⟩
  · rw [parseID3v2Header_any]
    exact Option.some_ne_none _

/-- C13: on a stream that starts with `ID3` and whose decoded version is that
of the variant `v`, the calls of `Read` are the construction of the decoder,
then `k` rounds of `HasFrame` answering true followed by `ReadFrame`, then,
when the loop ends, one `HasFrame` answering false after which nothing is
called and `Read` returns the record; as long as `HasFrame` keeps answering
true (the fuel runs out after `k = fuel` rounds) `Read` has not returned and
the calls are the rounds alone. -/
theorem C13_call_sequence {σ : Type} (ps : Parsers ByteReader σ) (fuel : Nat)
    (s : List Byte) (file : File) (rd : BufioReader ByteReader) (v : Variant)
    (hmagic : s.take 3 = [73, 68, 51])
    (hparse : parseID3v2Header File.new (isID3Tag (NewReader (ByteReader.mk s))).2
      = some (file, rd))
    (hver : file.Header.Version = v.version) :
    ∃ view k, k ≤ fuel ∧
      ((∃ f, (Read ps fuel (ByteReader.mk s)).outcome = Outcome.record f ∧
          (Read ps fuel (ByteReader.mk s)).calls
            = Event.construct v view :: (framePairs v k ++ [Event.hasFrame v false])) ∨
        ((Read ps fuel (ByteReader.mk s)).outcome = Outcome.unfinished ∧ k = fuel ∧
          (Read ps fuel (ByteReader.mk s)).calls
            = Event.construct v view :: framePairs v k)) := by
  obtain ⟨hf, _⟩ := parse_stream_inv s file rd hmagic hparse
  have hsel : selectVariant (zeroPaddedHeader s).Version = some v := by
    have : (zeroPaddedHeader s).Version = v.version := by rw [← hver, hf]
    rw [this]
    exact selectVariant_version v
  rw [Read_tagged_some ps fuel s v hmagic hsel]
  obtain ⟨k, hk, h⟩ := frameLoop_shape (ps.get v) v fuel ((ps.get v).New (boundedView s))
    { File.new with Header := zeroPaddedHeader s }
  refine ⟨boundedView s, k, hk, ?_⟩
  generalize frameLoop (ps.get v) v fuel _ _ = r at h
  rcases r with ⟨_ | _, p, f, c⟩
  · rcases h with ⟨h1, _⟩ | ⟨_, h2, h3⟩
    · cases h1
    · right
      simp only at h3
      exact ⟨rfl, h2, by rw [h3]⟩
  · rcases h with ⟨_, h2⟩ | ⟨h1, _, _⟩
    · left
      simp only at h2
      exact ⟨f, rfl, by rw [h2]⟩
    · cases h1

/-- C13, at the stream `ID3`, 3, 0, 0, 0, 0, 0, 2, 1, 2, 3 with decoders whose
frames are single bytes: two rounds, then `HasFrame` answers false and `Read`
returns. -/
theorem C13_call_sequence_witness :
    ∃ view f,
      (Read byteFrameParsers 5
        (ByteReader.mk [73, 68, 51, 3, 0, 0, 0, 0, 0, 2, 1, 2, 3])).outcome
        = Outcome.record f ∧
      (Read byteFrameParsers 5
        (ByteReader.mk [73, 68, 51, 3, 0, 0, 0, 0, 0, 2, 1, 2, 3])).calls
        = [Event.construct Variant.v23 view,
           Event.hasFrame Variant.v23 true, Event.readFrame Variant.v23,
           Event.hasFrame Variant.v23 true, Event.readFrame Variant.v23,
           Event.hasFrame Variant.v23 false] := by
  obtain ⟨view, k, _, h⟩ :=
    C13_call_sequence byteFrameParsers 5 [73, 68, 51, 3, 0, 0, 0, 0, 0, 2, 1, 2, 3]
      ⟨⟨3, 0, false, false, false, false, 2⟩, "", "", "", "", "", "", "", ""⟩
      ⟨[1, 2, 3], ⟨[]⟩⟩ Variant.v23 (by decide) (by decide) (by decide)
  have hout : (Read byteFrameParsers 5
      (ByteReader.mk [73, 68, 51, 3, 0, 0, 0, 0, 0, 2, 1, 2, 3])).outcome
      ≠ Outcome.unfinished := by decide
  have hlen : (Read byteFrameParsers 5
      (ByteReader.mk [73, 68, 51, 3, 0, 0, 0, 0, 0, 2, 1, 2, 3])).calls.length = 6 := by
    decide
  rcases h with ⟨f, h1, h2⟩ | ⟨h1, _, _⟩
  · refine ⟨view, f, h1, ?_⟩
    rw [h2] at hlen ⊢
    have hk : k = 2 := by
      have hp : ∀ j, (framePairs (ρ := ByteReader) Variant.v23 j).length = 2 * j := by
        intro j
        induction j with
        | zero => rfl
        | succ m ih => simp only [framePairs, List.length_cons, ih]; omega
      simp only [List.length_cons, List.length_append, hp, List.length_nil] at hlen
      omega
    subst hk
    rfl
  · exact absurd h1 hout

/-- C14: on a stream that starts with `ID3` and whose decoded version is that
of the variant `v`, given a decoder that is constructed without adding bytes to
the view, whose `HasFrame` answers false when the view has nothing left to
deliver and whose `ReadFrame`, called after a `HasFrame` that answered true on
a view with bytes left, leaves fewer bytes in the view than there were before
that `HasFrame`: with
more than `Size` rounds of fuel the frame loop ends, `Read` returns a record,
and it makes at most `Size` calls of `ReadFrame`. -/
theorem C14_frame_loop_terminates {σ : Type} (ps : Parsers ByteReader σ) (fuel : Nat)
    (s : List Byte) (file : File) (rd : BufioReader ByteReader) (v : Variant)
    (hmagic : s.take 3 = [73, 68, 51])
    (hparse : parseID3v2Header File.new (isID3Tag (NewReader (ByteReader.mk s))).2
      = some (file, rd))
    (hver : file.Header.Version = v.version)
    (hnew : ∀ view, (View.pending ((ps.get v).New view).view).length
      ≤ (View.pending view).length)
    (hempty : ∀ d, View.pending d.view = [] → ((ps.get v).HasFrame d).1 = false)
    (hstep : ∀ d file, View.pending d.view ≠ [] → ((ps.get v).HasFrame d).1 = true →
      (View.pending ((ps.get v).ReadFrame ((ps.get v).HasFrame d).2 file).1.view).length
        < (View.pending d.view).length)
    (hfuel : file.Header.Size < (fuel : Int)) :
    (∃ f, (Read ps fuel (ByteReader.mk s)).outcome = Outcome.record f) ∧
      (((Read ps fuel (ByteReader.mk s)).calls.count (Event.readFrame v) : Nat) : Int)
        ≤ file.Header.Size := by
  obtain ⟨hf, _⟩ := parse_stream_inv s file rd hmagic hparse
  have hsz : file.Header.Size = (zeroPaddedHeader s).Size := by rw [hf]
  have hsel : selectVariant (zeroPaddedHeader s).Version = some v := by
    have : (zeroPaddedHeader s).Version = v.version := by rw [← hver, hf]
    rw [this]
    exact selectVariant_version v
  have hnonneg : 0 ≤ (zeroPaddedHeader s).Size :=
    (parseSize_bounds [s.getD 6 0, s.getD 7 0, s.getD 8 0, s.getD 9 0]).1
  have hpend : (View.pending ((ps.get v).New (boundedView s)).view).length
      ≤ (zeroPaddedHeader s).Size.toNat := by
    refine Nat.le_trans (hnew (boundedView s)) ?_
    rw [pending_boundedView, List.length_take]
    exact Nat.min_le_left _ _
  rw [hsz] at hfuel ⊢
  obtain ⟨h1, h2⟩ := frameLoop_terminates (ps.get v) v hempty hstep fuel
    ((ps.get v).New (boundedView s)) { File.new with Header := zeroPaddedHeader s }
    (by omega)
  rw [Read_tagged_some ps fuel s v hmagic hsel]
  generalize frameLoop (ps.get v) v fuel _ _ = r at h1 h2
  rcases r with ⟨_ | _, p, f, c⟩
  · cases h1
  · refine ⟨⟨f, rfl⟩, ?_⟩
    have hne : Event.readFrame (ρ := ByteReader) v ≠ Event.construct v (boundedView s) := by
      intro h
      cases h
    show (((Event.construct v (boundedView s) :: c).count (Event.readFrame v) : Nat) : Int) ≤ _
    rw [List.count_cons_of_ne hne]
    have h2' : c.count (Event.readFrame v)
        ≤ (View.pending ((ps.get v).New (boundedView s)).view).length := h2
    have := Nat.le_trans h2' hpend
    omega

/-- C14, at the stream `ID3`, 3, 0, 0, 0, 0, 0, 2, 1, 2, 3 (size 2) with
decoders whose frames are single bytes and 3 rounds of fuel. -/
theorem C14_frame_loop_terminates_witness :
    (∃ f, (Read byteFrameParsers 3
      (ByteReader.mk [73, 68, 51, 3, 0, 0, 0, 0, 0, 2, 1, 2, 3])).outcome
      = Outcome.record f) ∧
    ((((Read byteFrameParsers 3
      (ByteReader.mk [73, 68, 51, 3, 0, 0, 0, 0, 0, 2, 1, 2, 3])).calls.count
        (Event.readFrame Variant.v23) : Nat) : Int) ≤ 2) :=
  C14_frame_loop_terminates byteFrameParsers 3 [73, 68, 51, 3, 0, 0, 0, 0, 0, 2, 1, 2, 3]
    ⟨⟨3, 0, false, false, false, false, 2⟩, "", "", "", "", "", "", "", ""⟩
    ⟨[1, 2, 3], ⟨[]⟩⟩ Variant.v23 (by decide) (by decide) (by decide)
    (fun view => Nat.le_refl _)
    (fun d h => by
      show decide (View.pending d.view ≠ []) = false
      simp [h])
    (fun d file _ h => byteFrames_step d file h)
    (by decide)

/-- C15: on a stream that starts with `ID3`, whose decoded version is that of
the variant `v` and whose decoded size is 0, given a decoder that has no frame
when constructed on a view with nothing to deliver, `Read` calls `HasFrame`
once, never `ReadFrame`, and returns the record that holds the decoded header
and empty `Name`, `Artist`, `Album`, `Year`, `Track`, `Disc`, `Genre` and
`Length`. -/
theorem C15_empty_tag {σ : Type} (ps : Parsers ByteReader σ) (fuel : Nat)
    (s : List Byte) (file : File) (rd : BufioReader ByteReader) (v : Variant)
    (hmagic : s.take 3 = [73, 68, 51])
    (hparse : parseID3v2Header File.new (isID3Tag (NewReader (ByteReader.mk s))).2
      = some (file, rd))
    (hver : file.Header.Version = v.version)
    (hsize : file.Header.Size = 0)
    (hfirst : ∀ view, View.pending view = [] →
      ((ps.get v).HasFrame ((ps.get v).New view)).1 = false) :
    (Read ps (fuel + 1) (ByteReader.mk s)).outcome = Outcome.record file ∧
    (∃ view, (Read ps (fuel + 1) (ByteReader.mk s)).calls
      = [Event.construct v view, Event.hasFrame v false]) ∧
    (Read ps (fuel + 1) (ByteReader.mk s)).calls.count (Event.readFrame v) = 0 ∧
    file.Name = "" ∧ file.Artist = "" ∧ file.Album = "" ∧ file.Year = "" ∧
    file.Track = "" ∧ file.Disc = "" ∧ file.Genre = "" ∧ file.Length = "" := by
  obtain ⟨hf, _⟩ := parse_stream_inv s file rd hmagic hparse
  have hsel : selectVariant (zeroPaddedHeader s).Version = some v := by
    have : (zeroPaddedHeader s).Version = v.version := by rw [← hver, hf]
    rw [this]
    exact selectVariant_version v
  have hs0 : (zeroPaddedHeader s).Size = 0 := by rw [← hsize, hf]
  have hpend : View.pending (boundedView s) = [] := by
    rw [pending_boundedView, hs0]
    rfl
  rw [Read_tagged_some ps (fuel + 1) s v hmagic hsel,
    frameLoop_stop _ _ _ _ _ (hfirst (boundedView s) hpend)]
  refine ⟨by rw [hf], ⟨boundedView s, rfl⟩, ?_, ?_⟩
  · show [Event.construct v (boundedView s), Event.hasFrame v false].count
      (Event.readFrame v) = 0
    have h1 : Event.readFrame (ρ := ByteReader) v ≠ Event.construct v (boundedView s) := by
      intro h
      cases h
    have h2 : Event.readFrame (ρ := ByteReader) v ≠ Event.hasFrame v false := by
      intro h
      cases h
    rw [List.count_cons_of_ne h1, List.count_cons_of_ne h2]
    rfl
  · rw [hf]
    exact ⟨rfl, rfl, rfl, rfl, rfl, rfl, rfl, rfl⟩

/-- C15, at the stream `ID3`, 4, 0, 0, 0, 0, 0, 0 with decoders that never have
a frame: version 4, size 0, all text fields empty. -/
theorem C15_empty_tag_witness :
    (Read (noFrameParsers ByteReader) (0 + 1)
      (ByteReader.mk [73, 68, 51, 4, 0, 0, 0, 0, 0, 0])).outcome
      = Outcome.record ⟨⟨4, 0, false, false, false, false, 0⟩, "", "", "", "", "", "", "", ""⟩ ∧
    (Read (noFrameParsers ByteReader) (0 + 1)
      (ByteReader.mk [73, 68, 51, 4, 0, 0, 0, 0, 0, 0])).calls.count
        (Event.readFrame Variant.v24) = 0 := by
  obtain ⟨h1, _, h3, _⟩ :=
    C15_empty_tag (noFrameParsers ByteReader) 0 [73, 68, 51, 4, 0, 0, 0, 0, 0, 0]
      ⟨⟨4, 0, false, false, false, false, 0⟩, "", "", "", "", "", "", "", ""⟩
      ⟨[], ⟨[]⟩⟩ Variant.v24 (by decide) (by decide) (by decide) (by decide)
      (fun _ _ => rfl)
  exact ⟨h1, h3⟩

/-- C19: `parseID3v2Header` changes only the `Header` of the record it is given:
for every record and every reader it returns a record with the same `Name`,
`Artist`, `Album`, `Year`, `Track`, `Disc`, `Genre` and `Length`.  So in `Read`,
on a stream that starts with `ID3` with the decoded version of the variant `v`,
when the first `HasFrame` answers true the first `ReadFrame` call receives the
record decoded from `new(File)`, whose eight text fields are empty, and `Read`
goes on from what that call returns. -/
theorem C19_only_header_changes {ρ : Type} [IOReader ρ] (file : File) (reader : ρ) :
    (∃ file' reader',
      parseID3v2Header file reader = some (file', reader') ∧
      file'.Name = file.Name ∧ file'.Artist = file.Artist ∧ file'.Album = file.Album ∧
      file'.Year = file.Year ∧ file'.Track = file.Track ∧ file'.Disc = file.Disc ∧
      file'.Genre = file.Genre ∧ file'.Length = file.Length) ∧
    ∀ (σ : Type) (ps : Parsers ByteReader σ) (fuel : Nat) (s : List Byte) (v : Variant)
      (file0 : File) (rd : BufioReader ByteReader) (d1 : Decoder ByteReader σ),
      s.take 3 = [73, 68, 51] →
      parseID3v2Header File.new (isID3Tag (NewReader (ByteReader.mk s))).2
        = some (file0, rd) →
      file0.Header.Version = v.version →
      (ps.get v).HasFrame ((ps.get v).New (NewReader (LimitReader rd file0.Header.Size)))
        = (true, d1) →
      (file0.Name = "" ∧ file0.Artist = "" ∧ file0.Album = "" ∧ file0.Year = "" ∧
        file0.Track = "" ∧ file0.Disc = "" ∧ file0.Genre = "" ∧ file0.Length = "") ∧
      Read ps (fuel + 1) (ByteReader.mk s) =
        match frameLoop (ps.get v) v fuel ((ps.get v).ReadFrame d1 file0).1
            ((ps.get v).ReadFrame d1 file0).2 with
        | (true, parser', file', calls) =>
          ⟨Outcome.record file',
            Event.construct v (NewReader (LimitReader rd file0.Header.Size))
              :: Event.hasFrame v true :: Event.readFrame v :: calls,
            parser'.view.rd.R.rd⟩
        | (false, parser', _, calls) =>
          ⟨Outcome.unfinished,
            Event.construct v (NewReader (LimitReader rd file0.Header.Size))
              :: Event.hasFrame v true :: Event.readFrame v :: calls,
            parser'.view.rd.R.rd⟩ := by
  refine ⟨⟨_, _, parseID3v2Header_any file reader, rfl, rfl, rfl, rfl, rfl, rfl, rfl, rfl⟩, ?_⟩
  intro σ ps fuel s v file0 rd d1 hmagic hparse hver hhas
  obtain ⟨hf, hrd⟩ := parse_stream_inv s file0 rd hmagic hparse
  have hsel : selectVariant (zeroPaddedHeader s).Version = some v := by
    have : (zeroPaddedHeader s).Version = v.version := by rw [← hver, hf]
    rw [this]
    exact selectVariant_version v
  have hview : (NewReader (LimitReader rd file0.Header.Size) : View ByteReader)
      = boundedView s := by
    rw [hrd, hf]
    rfl
  rw [hview] at hhas ⊢
  refine ⟨by rw [hf]; exact ⟨rfl, rfl, rfl, rfl, rfl, rfl, rfl, rfl⟩, ?_⟩
  rw [Read_tagged_some ps (fuel + 1) s v hmagic hsel, ← hf]
  simp only [frameLoop, hhas]
  generalize frameLoop (ps.get v) v fuel _ _ = r
  rcases r with ⟨_ | _, p, f, c⟩ <;> rfl

/-- C19, at a record with `Name` and `Artist` set and the stream
`ID3`, 3, 0, 0, 0, 0, 0, 2, and, for `Read`, at the stream
`ID3`, 3, 0, 0, 0, 0, 0, 2, 1, 2, 3 with decoders whose frames are single
bytes. -/
theorem C19_only_header_changes_witness :
    (∃ file' reader',
      parseID3v2Header
        (⟨⟨0, 0, false, false, false, false, 0⟩, "Song", "Band", "", "", "", "", "", ""⟩ : File)
        (ByteReader.mk [73, 68, 51, 3, 0, 0, 0, 0, 0, 2]) = some (file', reader') ∧
      file'.Name = "Song" ∧ file'.Artist = "Band" ∧ file'.Album = "") ∧
    ∃ file0 : File,
      file0.Name = "" ∧ file0.Length = "" ∧
      (Read byteFrameParsers (1 + 1)
        (ByteReader.mk [73, 68, 51, 3, 0, 0, 0, 0, 0, 2, 1, 2, 3])).outcome =
        (match frameLoop (byteFrameParsers.get Variant.v23) Variant.v23 1
            ((byteFrameParsers.get Variant.v23).ReadFrame
              ⟨NewReader (LimitReader ⟨[1, 2, 3], ⟨[]⟩⟩ 2), ()⟩ file0).1
            ((byteFrameParsers.get Variant.v23).ReadFrame
              ⟨NewReader (LimitReader ⟨[1, 2, 3], ⟨[]⟩⟩ 2), ()⟩ file0).2 with
          | (true, _, file', _) => Outcome.record file'
          | (false, _, _, _) => Outcome.unfinished) := by
  obtain ⟨⟨file', reader', hp, h1, h2, h3, _⟩, hread⟩ :=
    C19_only_header_changes
      (⟨⟨0, 0, false, false, false, false, 0⟩, "Song", "Band", "", "", "", "", "", ""⟩ : File)
      (ByteReader.mk [73, 68, 51, 3, 0, 0, 0, 0, 0, 2])
  refine ⟨⟨file', reader', hp, h1, h2, h3⟩, ?_⟩
  obtain ⟨⟨hn, _, _, _, _, _, _, hl⟩, heq⟩ :=
    hread Unit byteFrameParsers 1 [73, 68, 51, 3, 0, 0, 0, 0, 0, 2, 1, 2, 3] Variant.v23
      ⟨⟨3, 0, false, false, false, false, 2⟩, "", "", "", "", "", "", "", ""⟩
      ⟨[1, 2, 3], ⟨[]⟩⟩ ⟨NewReader (LimitReader ⟨[1, 2, 3], ⟨[]⟩⟩ 2), ()⟩
      (by decide) (by decide) (by decide) rfl
  refine ⟨_, hn, hl, ?_⟩
  rw [heq]
  generalize frameLoop (byteFrameParsers.get Variant.v23) Variant.v23 1 _ _ = r
  rcases r with ⟨_ | _, p, f, c⟩ <;> rfl

/-! ## Theorems on the claims that depend on how the reader delivers -/

/-- C6 (counterexample): the header `ID3`, 3, 0, 0x80, 0, 0, 7, 104, whose bytes
6 to 9 are the synchsafe encoding of 1000, read through a reader that delivers
one byte per call: the peek buffers 3 bytes, the one read of
`parseID3v2Header` obtains those 3 only, and the decoded `Size` is 0. -/
theorem C6_size_lost_on_short_read :
    parseSize [0, 0, 7, 104] = 1000 ∧
    (IOReader.read
      (isID3Tag (NewReader (ChunkReader.mk [73, 68, 51, 3, 0, 0x80, 0, 0, 7, 104] 1))).2
      10).1 = [73, 68, 51] ∧
    (parseID3v2Header File.new
      (isID3Tag (NewReader (ChunkReader.mk [73, 68, 51, 3, 0, 0x80, 0, 0, 7, 104] 1))).2).map
      (fun x => x.1.Header.Size) = some 0 := by
  decide

/-- C6 (amended): for every reader that delivers its pending bytes in order
and without loss, on a stream that starts with `ID3` and holds at least 10
bytes, when the reader's first read, asked for a full buffer, returns at least
10 bytes, the decoded `Size` is the synchsafe value of bytes 6 to 9,
`((b6 & 0x7f) << 21) | ((b7 & 0x7f) << 14) | ((b8 & 0x7f) << 7) | (b9 & 0x7f)`,
which is `(b6 mod 128) * 2^21 + (b7 mod 128) * 2^14 + (b8 mod 128) * 2^7 +
(b9 mod 128)`: the high bit of a size byte does not contribute. -/
theorem C6_size_synchsafe {ρ : Type} [IOReader ρ] (pending : ρ → List Byte)
    (hD : Delivers pending) (r : ρ)
    (hmagic : (pending r).take 3 = [73, 68, 51]) (hlen : 10 ≤ (pending r).length)
    (hfirst : 10 ≤ (IOReader.read r defaultBufSize).1.length) :
    ∃ file rd b6 b7 b8 b9,
      parseID3v2Header File.new (isID3Tag (NewReader r)).2 = some (file, rd) ∧
      (pending r)[6]? = some b6 ∧ (pending r)[7]? = some b7 ∧
      (pending r)[8]? = some b8 ∧ (pending r)[9]? = some b9 ∧
      file.Header.Size =
        (((((b6.val &&& 0x7f) <<< 21) ||| ((b7.val &&& 0x7f) <<< 14)
          ||| ((b8.val &&& 0x7f) <<< 7)) ||| (b9.val &&& 0x7f) : Nat) : Int) ∧
      file.Header.Size =
        ((b6.val % 128 * 2 ^ 21 + b7.val % 128 * 2 ^ 14 + b8.val % 128 * 2 ^ 7
          + b9.val % 128 : Nat) : Int) := by
  have hget : ∀ i, i < 10 → (pending r)[i]? = some ((pending r).getD i 0) := by
    intro i hi
    have hi' : i < (pending r).length := by omega
    simp [List.getD_eq_getElem?_getD, List.getElem?_eq_getElem hi']
  obtain ⟨_, hp, _, _⟩ := header_first_read hD r File.new hmagic
    (Nat.le_trans (Nat.min_le_left _ _) hfirst)
  refine ⟨_, _, (pending r).getD 6 0, (pending r).getD 7 0, (pending r).getD 8 0,
    (pending r).getD 9 0, hp, hget 6 (by omega), hget 7 (by omega),
    hget 8 (by omega), hget 9 (by omega), ?_, ?_⟩
  · show parseSize [(pending r).getD 6 0, (pending r).getD 7 0, (pending r).getD 8 0,
      (pending r).getD 9 0] = _
    rw [parseSize_four]
    have hand : ∀ x : Nat, x &&& 0x7f = x % 128 := fun x =>
      Nat.and_pow_two_sub_one_eq_mod x 7
    simp only [hand]
    rw [synchsafe_or_eq_add _ _ _ _ (Nat.mod_lt _ (by decide)) (Nat.mod_lt _ (by decide))
      (Nat.mod_lt _ (by decide))]
  · show parseSize [(pending r).getD 6 0, (pending r).getD 7 0, (pending r).getD 8 0,
      (pending r).getD 9 0] = _
    rw [parseSize_four]
    norm_num

/-- C6 (amended), at the header `ID3`, 3, 0, 0x80, 0, 0, 7, 104 read through a
reader that delivers 10 bytes per call: the size is 1000. -/
theorem C6_size_synchsafe_witness :
    ∃ file rd,
      parseID3v2Header File.new
        (isID3Tag (NewReader
          (ChunkReader.mk [73, 68, 51, 3, 0, 0x80, 0, 0, 7, 104] 10))).2 = some (file, rd) ∧
      file.Header.Size = 1000 := by
  obtain ⟨file, rd, b6, b7, b8, b9, hp, h6, h7, h8, h9, _, hs⟩ :=
    C6_size_synchsafe (fun r : ChunkReader => if r.cap = 0 then [] else r.rest)
      delivers_chunkReader (ChunkReader.mk [73, 68, 51, 3, 0, 0x80, 0, 0, 7, 104] 10)
      (by decide) (by decide) (by decide)
  refine ⟨file, rd, hp, ?_⟩
  have e6 : b6 = 0 := (Option.some.inj h6).symm
  have e7 : b7 = 0 := (Option.some.inj h7).symm
  have e8 : b8 = 7 := (Option.some.inj h8).symm
  have e9 : b9 = 104 := (Option.some.inj h9).symm
  rw [hs, e6, e7, e8, e9]
  decide

/-- C9 (counterexample): the header `ID3`, 3, 1, 0, 0, 0, 0, 0, whose byte 3 is
3 and byte 4 is 1, read through a reader that delivers one byte per call:
the decoded `Version` and `MinorVersion` are 0 and `Read` panics with the
unsupported-version failure for version 0. -/
theorem C9_version_lost_on_short_read :
    ([73, 68, 51, 3, 1, 0, 0, 0, 0, 0] : List Byte)[3]? = some 3 ∧
    (parseID3v2Header File.new
      (isID3Tag (NewReader (ChunkReader.mk [73, 68, 51, 3, 1, 0, 0, 0, 0, 0] 1))).2).map
      (fun x => (x.1.Header.Version, x.1.Header.MinorVersion)) = some (0, 0) ∧
    (Read (noFrameParsers ChunkReader) 1
      (ChunkReader.mk [73, 68, 51, 3, 1, 0, 0, 0, 0, 0] 1)).outcome
      = Outcome.panicked "Unrecognized ID3v2 version: 0" := by
  decide

/-- C9 (amended): for every reader that delivers its pending bytes in order
and without loss, on a stream that starts with `ID3` and holds at least 10
bytes, when the reader's first read, asked for a full buffer, returns at least
10 bytes, the decoded `Version` is byte 3 and `MinorVersion` is byte 4, both
in 0..255; a second such stream with the same byte 3 (byte 4) decodes to the
same `Version` (`MinorVersion`), whatever its other bytes are. -/
theorem C9_version_bytes {ρ : Type} [IOReader ρ] (pending : ρ → List Byte)
    (hD : Delivers pending) (r r' : ρ)
    (hmagic : (pending r).take 3 = [73, 68, 51]) (hlen : 10 ≤ (pending r).length)
    (hfirst : 10 ≤ (IOReader.read r defaultBufSize).1.length)
    (hmagic' : (pending r').take 3 = [73, 68, 51]) (hlen' : 10 ≤ (pending r').length)
    (hfirst' : 10 ≤ (IOReader.read r' defaultBufSize).1.length) :
    ∃ file rd file' rd' b3 b4,
      parseID3v2Header File.new (isID3Tag (NewReader r)).2 = some (file, rd) ∧
      parseID3v2Header File.new (isID3Tag (NewReader r')).2 = some (file', rd') ∧
      (pending r)[3]? = some b3 ∧ (pending r)[4]? = some b4 ∧
      file.Header.Version = (b3.val : Int) ∧ file.Header.MinorVersion = (b4.val : Int) ∧
      0 ≤ file.Header.Version ∧ file.Header.Version ≤ 255 ∧
      0 ≤ file.Header.MinorVersion ∧ file.Header.MinorVersion ≤ 255 ∧
      ((pending r')[3]? = (pending r)[3]? → file'.Header.Version = file.Header.Version) ∧
      ((pending r')[4]? = (pending r)[4]? →
        file'.Header.MinorVersion = file.Header.MinorVersion) := by
  have hget : ∀ (l : List Byte) i, i < l.length → l[i]? = some (l.getD i 0) := by
    intro l i hi
    simp [List.getD_eq_getElem?_getD, List.getElem?_eq_getElem hi]
  have h3 := ((pending r).getD 3 0).isLt
  have h4 := ((pending r).getD 4 0).isLt
  obtain ⟨_, hp, _, _⟩ := header_first_read hD r File.new hmagic
    (Nat.le_trans (Nat.min_le_left _ _) hfirst)
  obtain ⟨_, hp', _, _⟩ := header_first_read hD r' File.new hmagic'
    (Nat.le_trans (Nat.min_le_left _ _) hfirst')
  refine ⟨_, _, _, _, (pending r).getD 3 0, (pending r).getD 4 0, hp, hp',
    hget _ 3 (by omega), hget _ 4 (by omega), rfl, rfl, ?_, ?_, ?_, ?_, ?_, ?_⟩
  · show (0 : Int) ≤ (((pending r).getD 3 0).val : Int)
    omega
  · show (((pending r).getD 3 0).val : Int) ≤ 255
    omega
  · show (0 : Int) ≤ (((pending r).getD 4 0).val : Int)
    omega
  · show (((pending r).getD 4 0).val : Int) ≤ 255
    omega
  · intro h
    rw [hget _ 3 (by omega), hget _ 3 (by omega)] at h
    show (((pending r').getD 3 0).val : Int) = (((pending r).getD 3 0).val : Int)
    rw [Option.some.inj h]
  · intro h
    rw [hget _ 4 (by omega), hget _ 4 (by omega)] at h
    show (((pending r').getD 4 0).val : Int) = (((pending r).getD 4 0).val : Int)
    rw [Option.some.inj h]

/-- C9 (amended), at the streams `ID3`, 3, 1, 0, 0, 0, 0, 0 and
`ID3`, 3, 9, 255, 1, 2, 3, 4, which share byte 3 only, read through readers
that deliver every byte asked for. -/
theorem C9_version_bytes_witness :
    ∃ file rd file' rd',
      parseID3v2Header File.new
        (isID3Tag (NewReader (ByteReader.mk [73, 68, 51, 3, 1, 0, 0, 0, 0, 0]))).2
        = some (file, rd) ∧
      parseID3v2Header File.new
        (isID3Tag (NewReader (ByteReader.mk [73, 68, 51, 3, 9, 255, 1, 2, 3, 4]))).2
        = some (file', rd') ∧
      file.Header.Version = 3 ∧ file.Header.MinorVersion = 1 ∧
      file'.Header.Version = file.Header.Version := by
  obtain ⟨file, rd, file', rd', b3, b4, hp, hp', h3, h4, hv, hm, _, _, _, _, hsame, _⟩ :=
    C9_version_bytes (fun r : ByteReader => r.rest) delivers_byteReader
      (ByteReader.mk [73, 68, 51, 3, 1, 0, 0, 0, 0, 0])
      (ByteReader.mk [73, 68, 51, 3, 9, 255, 1, 2, 3, 4])
      (by decide) (by decide) (by decide) (by decide) (by decide) (by decide)
  have e3 : b3 = 3 := (Option.some.inj h3).symm
  have e4 : b4 = 1 := (Option.some.inj h4).symm
  refine ⟨file, rd, file', rd', hp, hp', ?_, ?_, hsame (by decide)⟩
  · rw [hv, e3]; rfl
  · rw [hm, e4]; rfl

theorem pendingOver_view {ρ : Type} (pending : ρ → List Byte) (rd : BufioReader ρ) (n : Int) :
    View.pendingOver pending (NewReader (LimitReader rd n))
      = (BufioReader.pendingOver pending rd).take n.toNat := by
  simp [View.pendingOver, NewReader, LimitReader]

/-- C7 (counterexample): the stream `ID3`, 3, 0, 0, 0, 0, 1, 77, 1, 2, 3 read
through a reader that delivers at most 9 bytes per call: the peek buffers 9
bytes, the read of `parseID3v2Header` obtains those 9 only, and the first read
on the view handed to the decoder starts with 77, the header byte at offset 9,
not with the byte 1 at offset 10. -/
theorem C7_short_read_leaks_header_byte :
    (IOReader.read
      (isID3Tag (NewReader
        (ChunkReader.mk [73, 68, 51, 3, 0, 0, 0, 0, 1, 77, 1, 2, 3] 9))).2 10).1.length = 9 ∧
    (Read (noFrameParsers ChunkReader) 1
      (ChunkReader.mk [73, 68, 51, 3, 0, 0, 0, 0, 1, 77, 1, 2, 3] 9)).calls
      = [Event.construct Variant.v23 ⟨[], ⟨⟨[], ⟨[77, 1, 2, 3], 9⟩⟩, 128⟩⟩,
         Event.hasFrame Variant.v23 false] ∧
    (IOReader.read (⟨[], ⟨⟨[], ⟨[77, 1, 2, 3], 9⟩⟩, 128⟩⟩ : View ChunkReader) 4).1.head?
      = some 77 ∧
    ([73, 68, 51, 3, 0, 0, 0, 0, 1, 77, 1, 2, 3] : List Byte)[9]? = some 77 ∧
    ([73, 68, 51, 3, 0, 0, 0, 0, 1, 77, 1, 2, 3] : List Byte)[10]? = some 1 := by
  decide

/-- C7 (amended): for every reader that delivers its pending bytes in order
and without loss, on a stream that starts with `ID3` and holds at least 10
bytes, when the reader's first read, asked for a full buffer, returns at least
10 bytes: the peek of `isID3Tag` leaves every byte of the stream pending in
the buffered reader, the read of `parseID3v2Header` delivers the bytes at
offsets 0 to 9 and leaves the bytes from offset 10 on pending, and with a
supported version `Read` constructs the decoder on a fresh view of that reader,
whose first read delivers the stream's byte at offset 10 first. -/
theorem C7_header_consumes_ten {ρ σ : Type} [IOReader ρ] (pending : ρ → List Byte)
    (hD : Delivers pending) (ps : Parsers ρ σ) (fuel : Nat) (r : ρ)
    (hmagic : (pending r).take 3 = [73, 68, 51]) (hlen : 10 ≤ (pending r).length)
    (hfirst : 10 ≤ (IOReader.read r defaultBufSize).1.length) :
    BufioReader.pendingOver pending (isID3Tag (NewReader r)).2 = pending r ∧
    ∃ file rd,
      parseID3v2Header File.new (isID3Tag (NewReader r)).2 = some (file, rd) ∧
      IOReader.read (isID3Tag (NewReader r)).2 10 = ((pending r).take 10, rd) ∧
      ((pending r).take 10).length = 10 ∧
      BufioReader.pendingOver pending rd = (pending r).drop 10 ∧
      ∀ v : Variant, file.Header.Version = v.version →
        Read ps fuel r
          = runDecoder (ps.get v) v fuel (NewReader (LimitReader rd file.Header.Size)) file ∧
        ∀ n, 0 < n → 0 < file.Header.Size →
          (IOReader.read (NewReader (LimitReader rd file.Header.Size) : View ρ) n).1.head?
            = (pending r)[10]? := by
  obtain ⟨htag, hp, hread, hpend⟩ := header_first_read hD r File.new hmagic
    (Nat.le_trans (Nat.min_le_left _ _) hfirst)
  refine ⟨(isID3Tag_spec hD r).1, _, _, hp, hread, by simp [hlen], hpend, ?_⟩
  intro v hver
  have hsel : selectVariant (zeroPaddedHeader (pending r)).Version = some v := by
    have : (zeroPaddedHeader (pending r)).Version = v.version := hver
    rw [this]
    exact selectVariant_version v
  refine ⟨Read_of_parse ps fuel r _ _ v htag hp hsel, ?_⟩
  intro n hn hsize
  have hsize' : 0 < (zeroPaddedHeader (pending r)).Size := hsize
  have hV := delivers_viewOver hD
  have hsplit := hV.split (NewReader (LimitReader
    (⟨(IOReader.read r defaultBufSize).1.drop 10, (IOReader.read r defaultBufSize).2⟩ :
      BufioReader ρ) (zeroPaddedHeader (pending r)).Size)) n
  have hprog := hV.progress (NewReader (LimitReader
    (⟨(IOReader.read r defaultBufSize).1.drop 10, (IOReader.read r defaultBufSize).2⟩ :
      BufioReader ρ) (zeroPaddedHeader (pending r)).Size)) n hn
  rw [pendingOver_view, hpend] at hsplit hprog
  have hhead : (((pending r).drop 10).take (zeroPaddedHeader (pending r)).Size.toNat).head?
      = (pending r)[10]? := by
    rw [List.head?_take, List.head?_drop]
    have : (zeroPaddedHeader (pending r)).Size.toNat ≠ 0 := by omega
    simp [this]
  rw [← hhead]
  show (IOReader.read (NewReader (LimitReader
    (⟨(IOReader.read r defaultBufSize).1.drop 10, (IOReader.read r defaultBufSize).2⟩ :
      BufioReader ρ) (zeroPaddedHeader (pending r)).Size)) n).1.head? = _
  cases hd : (IOReader.read (NewReader (LimitReader
    (⟨(IOReader.read r defaultBufSize).1.drop 10, (IOReader.read r defaultBufSize).2⟩ :
      BufioReader ρ) (zeroPaddedHeader (pending r)).Size)) n).1 with
  | nil =>
    by_cases hpn : ((pending r).drop 10).take (zeroPaddedHeader (pending r)).Size.toNat = []
    · rw [hpn]
    · exact absurd hd (hprog hpn)
  | cons a t =>
    rw [hsplit, hd]
    rfl

/-- C7 (amended), at the stream `ID3`, 3, 0, 0, 0, 0, 0, 2, 1, 2, 3 read through
a reader that delivers 10 bytes per call: the decoder of the ID3v2.3 variant
runs on a view whose first read starts with the byte 1 at offset 10. -/
theorem C7_header_consumes_ten_witness :
    ∃ (view : View ChunkReader) (file : File),
      Read (noFrameParsers ChunkReader) 1
        (ChunkReader.mk [73, 68, 51, 3, 0, 0, 0, 0, 0, 2, 1, 2, 3] 10)
        = runDecoder (noFrames ChunkReader) Variant.v23 1 view file ∧
      (IOReader.read view 4).1.head? = some 1 := by
  obtain ⟨_, file, rd, hp, _, _, _, h⟩ :=
    C7_header_consumes_ten (fun r : ChunkReader => if r.cap = 0 then [] else r.rest)
      delivers_chunkReader (noFrameParsers ChunkReader) 1
      (ChunkReader.mk [73, 68, 51, 3, 0, 0, 0, 0, 0, 2, 1, 2, 3] 10)
      (by decide) (by decide) (by decide)
  have e : parseID3v2Header File.new
      (isID3Tag (NewReader
        (ChunkReader.mk [73, 68, 51, 3, 0, 0, 0, 0, 0, 2, 1, 2, 3] 10))).2
      = some (⟨⟨3, 0, false, false, false, false, 2⟩, "", "", "", "", "", "", "", ""⟩,
          ⟨[], ⟨[1, 2, 3], 10⟩⟩) := by decide
  rw [e] at hp
  have hfile := ((Prod.mk.inj (Option.some.inj hp)).1).symm
  subst hfile
  obtain ⟨hrun, hread⟩ := h Variant.v23 (by decide)
  exact ⟨_, _, hrun, hread 4 (by decide) (by decide)⟩

/-- C5 (counterexample): the stream `ID3`, 3, 0, 0, 0, 0, 1, 77, 1, 2, 3 read
through a reader that delivers at most 9 bytes per call: the decoded `Size` is
128, the bytes after the 10-byte header are 1, 2, 3, and the view `Read`
hands to the decoder delivers 77, 1, 2, 3: its first byte is the last byte of
the header. -/
theorem C5_short_read_view_starts_in_header :
    (parseID3v2Header File.new
      (isID3Tag (NewReader
        (ChunkReader.mk [73, 68, 51, 3, 0, 0, 0, 0, 1, 77, 1, 2, 3] 9))).2).map
      (fun x => x.1.Header.Size) = some 128 ∧
    ([73, 68, 51, 3, 0, 0, 0, 0, 1, 77, 1, 2, 3] : List Byte).drop 10 = [1, 2, 3] ∧
    Read (noFrameParsers ChunkReader) 1
      (ChunkReader.mk [73, 68, 51, 3, 0, 0, 0, 0, 1, 77, 1, 2, 3] 9)
      = runDecoder (noFrames ChunkReader) Variant.v23 1
          ⟨[], ⟨⟨[], ⟨[77, 1, 2, 3], 9⟩⟩, 128⟩⟩
          ⟨⟨3, 0, false, false, false, false, 128⟩, "", "", "", "", "", "", "", ""⟩ ∧
    (readMany [8] (⟨[], ⟨⟨[], ⟨[77, 1, 2, 3], 9⟩⟩, 128⟩⟩ : View ChunkReader)).1
      = [77, 1, 2, 3] := by
  refine ⟨by decide, by decide, ?_, by decide⟩
  exact Read_of_parse (noFrameParsers ChunkReader) 1 _ _ _ Variant.v23 (by decide)
    (by decide) (by decide)

/-- C5 (amended): for every reader that delivers its pending bytes in order
and without loss, on a stream that starts with `ID3` whose decoded version is
that of the decoder variant `v`, when the reader's first read, asked for a full
buffer, returns at least the first 10 bytes (all bytes of a shorter stream):
`Read` constructs the decoder of variant `v` on a reader from which any
sequence of reads obtains a leading part of the first `min(Size, n)` bytes
after the 10-byte header (`n` bytes being left in the stream), never more than
`Size` bytes in total, and all of them once enough non-empty reads are made. -/
theorem C5_bounded_view {ρ σ : Type} [IOReader ρ] (pending : ρ → List Byte)
    (hD : Delivers pending) (ps : Parsers ρ σ) (fuel : Nat) (r : ρ)
    (file : File) (rd : BufioReader ρ) (v : Variant)
    (hmagic : (pending r).take 3 = [73, 68, 51])
    (hfirst : min 10 (pending r).length ≤ (IOReader.read r defaultBufSize).1.length)
    (hparse : parseID3v2Header File.new (isID3Tag (NewReader r)).2 = some (file, rd))
    (hver : file.Header.Version = v.version) :
    Read ps fuel r
      = runDecoder (ps.get v) v fuel (NewReader (LimitReader rd file.Header.Size)) file ∧
    (((pending r).drop 10).take file.Header.Size.toNat).length
      = min file.Header.Size.toNat ((pending r).length - 10) ∧
    (∀ ns : List Nat, ∃ k,
      (readMany ns (NewReader (LimitReader rd file.Header.Size) : View ρ)).1
        = (((pending r).drop 10).take file.Header.Size.toNat).take k) ∧
    (∀ ns : List Nat,
      (readMany ns (NewReader (LimitReader rd file.Header.Size) : View ρ)).1.length
        ≤ file.Header.Size.toNat) ∧
    (∀ ns : List Nat, (∀ n ∈ ns, 0 < n) →
      min file.Header.Size.toNat ((pending r).length - 10) ≤ ns.length →
      (readMany ns (NewReader (LimitReader rd file.Header.Size) : View ρ)).1
        = ((pending r).drop 10).take file.Header.Size.toNat) := by
  obtain ⟨htag, hp, _, hpend⟩ := header_first_read hD r File.new hmagic hfirst
  have hsel : selectVariant file.Header.Version = some v := by
    rw [hver]
    exact selectVariant_version v
  have hrun := Read_of_parse ps fuel r file rd v htag hparse hsel
  rw [hp] at hparse
  have hrd := (Prod.mk.inj (Option.some.inj hparse)).2
  rw [hrd] at hpend
  have hV := delivers_viewOver hD
  have hvp : View.pendingOver pending (NewReader (LimitReader rd file.Header.Size))
      = ((pending r).drop 10).take file.Header.Size.toNat := by
    rw [pendingOver_view, hpend]
  have hlen : (((pending r).drop 10).take file.Header.Size.toNat).length
      = min file.Header.Size.toNat ((pending r).length - 10) := by
    simp
  have hsplit : ∀ ns : List Nat, ((pending r).drop 10).take file.Header.Size.toNat
      = (readMany ns (NewReader (LimitReader rd file.Header.Size) : View ρ)).1
        ++ View.pendingOver pending
            (readMany ns (NewReader (LimitReader rd file.Header.Size) : View ρ)).2 := by
    intro ns
    rw [← hvp]
    exact readMany_split hV ns _
  refine ⟨hrun, hlen, ?_, ?_, ?_⟩
  · intro ns
    refine ⟨(readMany ns (NewReader (LimitReader rd file.Header.Size) : View ρ)).1.length, ?_⟩
    conv_rhs => rw [hsplit ns]
    simp
  · intro ns
    have h := congrArg List.length (hsplit ns)
    rw [hlen, List.length_append] at h
    omega
  · intro ns hpos hn
    rw [← hvp]
    apply readMany_all hV ns _ hpos
    rw [hvp, hlen]
    exact hn

/-- C5 (amended), at the stream `ID3`, 3, 0, 0, 0, 0, 0, 2, 1, 2, 3 (version 3,
size 2, three bytes after the header) read through a reader that delivers 10
bytes per call: two one-byte reads on the view handed to the ID3v2.3 decoder
obtain the bytes 1, 2 and no read obtains more. -/
theorem C5_bounded_view_witness :
    Read (noFrameParsers ChunkReader) 1
        (ChunkReader.mk [73, 68, 51, 3, 0, 0, 0, 0, 0, 2, 1, 2, 3] 10)
      = runDecoder (noFrames ChunkReader) Variant.v23 1
          (NewReader (LimitReader ⟨[], ⟨[1, 2, 3], 10⟩⟩ 2))
          ⟨⟨3, 0, false, false, false, false, 2⟩, "", "", "", "", "", "", "", ""⟩ ∧
    (readMany [1, 1]
      (NewReader (LimitReader ⟨[], ⟨[1, 2, 3], 10⟩⟩ 2) : View ChunkReader)).1 = [1, 2] ∧
    (readMany [4, 4, 4]
      (NewReader (LimitReader ⟨[], ⟨[1, 2, 3], 10⟩⟩ 2) : View ChunkReader)).1.length ≤ 2 := by
  obtain ⟨h1, _, _, h4, h5⟩ :=
    C5_bounded_view (fun r : ChunkReader => if r.cap = 0 then [] else r.rest)
      delivers_chunkReader (noFrameParsers ChunkReader) 1
      (ChunkReader.mk [73, 68, 51, 3, 0, 0, 0, 0, 0, 2, 1, 2, 3] 10)
      ⟨⟨3, 0, false, false, false, false, 2⟩, "", "", "", "", "", "", "", ""⟩
      ⟨[], ⟨[1, 2, 3], 10⟩⟩ Variant.v23 (by decide) (by decide) (by decide) (by decide)
  exact ⟨h1, h5 [1, 1] (by decide) (by decide), h4 [4, 4, 4]⟩

/-- C4 (amended): for every reader that delivers its pending bytes in order
and without loss, on a stream that starts with `ID3` and holds fewer than 10
bytes, when the reader's first read returns the whole stream: the header is
decoded from the zero-filled buffer, so the version is byte 3 of the stream, or
0 when the stream has only 3 bytes.  `Read` returns the record when that
version is 2, 3 or 4, given decoders that report no frame on a view with
nothing left to deliver; otherwise `Read` panics with the unsupported-version
failure. -/
theorem C4_truncated_header {ρ σ : Type} [IOReader ρ] (pending : ρ → List Byte)
    (hD : Delivers pending) (ps : Parsers ρ σ) (fuel : Nat) (r : ρ)
    (hmagic : (pending r).take 3 = [73, 68, 51]) (hlen : (pending r).length < 10)
    (hwhole : (pending r).length ≤ (IOReader.read r defaultBufSize).1.length)
    (hnone : ∀ v view, View.pendingOver pending view = [] →
      ((ps.get v).HasFrame ((ps.get v).New view)).1 = false) :
    ∃ file rd,
      parseID3v2Header File.new (isID3Tag (NewReader r)).2 = some (file, rd) ∧
      file.Header.Version = (((pending r).getD 3 0).val : Int) ∧
      (Read ps (fuel + 1) r).outcome =
        if file.Header.Version = 2 ∨ file.Header.Version = 3 ∨ file.Header.Version = 4
        then Outcome.record file
        else Outcome.panicked
          ("Unrecognized ID3v2 version: " ++ toString file.Header.Version) := by
  obtain ⟨htag, hp, _, hpend⟩ := header_first_read hD r File.new hmagic
    (Nat.le_trans (Nat.min_le_right _ _) hwhole)
  refine ⟨_, _, hp, rfl, ?_⟩
  cases hv : selectVariant (zeroPaddedHeader (pending r)).Version with
  | none =>
    have hne : ¬ ((zeroPaddedHeader (pending r)).Version = 2
        ∨ (zeroPaddedHeader (pending r)).Version = 3
        ∨ (zeroPaddedHeader (pending r)).Version = 4) := by
      intro h
      rcases h with h | h | h <;> rw [h] at hv <;> simp [selectVariant] at hv
    rw [Read_of_parse_none ps (fuel + 1) r _ _ htag hp hv]
    simp only [hne, if_false]
  | some v =>
    have hver := selectVariant_eq_some hv
    have hyes : (zeroPaddedHeader (pending r)).Version = 2
        ∨ (zeroPaddedHeader (pending r)).Version = 3
        ∨ (zeroPaddedHeader (pending r)).Version = 4 := by
      rw [hver]
      cases v <;> simp [Variant.version]
    have hvp : View.pendingOver pending (NewReader (LimitReader
        (⟨(IOReader.read r defaultBufSize).1.drop 10, (IOReader.read r defaultBufSize).2⟩ :
          BufioReader ρ) (zeroPaddedHeader (pending r)).Size)) = [] := by
      rw [pendingOver_view, hpend, List.drop_eq_nil_of_le (by omega)]
      simp
    rw [Read_of_parse ps (fuel + 1) r _ _ v htag hp hv, runDecoder_outcome,
      frameLoop_stop _ _ _ _ _ (hnone v _ hvp)]
    simp only [hyes, if_true]

/-- C4 (amended), at the 5-byte stream `ID3`, 3, 0 read through a reader that
delivers every byte asked for, with decoders that never have a frame. -/
theorem C4_truncated_header_witness :
    ∃ file rd,
      parseID3v2Header File.new
        (isID3Tag (NewReader (ByteReader.mk [73, 68, 51, 3, 0]))).2 = some (file, rd) ∧
      file.Header.Version = 3 ∧
      (Read (noFrameParsers ByteReader) (0 + 1) (ByteReader.mk [73, 68, 51, 3, 0])).outcome =
        Outcome.record file := by
  obtain ⟨file, rd, hp, hv, hout⟩ :=
    C4_truncated_header (fun r : ByteReader => r.rest) delivers_byteReader
      (noFrameParsers ByteReader) 0 (ByteReader.mk [73, 68, 51, 3, 0])
      (by decide) (by decide) (by decide) (fun v _ _ => by cases v <;> rfl)
  have hv3 : file.Header.Version = 3 := by
    rw [hv]
    rfl
  refine ⟨file, rd, hp, hv3, ?_⟩
  rw [hout, if_pos (Or.inr (Or.inl hv3))]

/-- C8 (amended): for every reader that delivers its pending bytes in order
and without loss, on a stream of `n` bytes that does not start with `ID3`,
`Read` returns the absent result, calling no decoder.  The check is peek-only
for the buffered reader inside `Read` (every byte of the stream is still
pending in it after `isID3Tag`), not for the caller's reader: the `k` bytes
the peek buffered, with `min(3, n) <= k <= 4096`, have been taken from it and
are not given back, so a read issued on the caller's reader after `Read`
returns goes on from offset `k` and obtains none of the inspected bytes. -/
theorem C8_absent_keeps_peeked_bytes {ρ σ : Type} [IOReader ρ] (pending : ρ → List Byte)
    (hD : Delivers pending) (ps : Parsers ρ σ) (fuel : Nat) (r : ρ)
    (hno : (pending r).take 3 ≠ [73, 68, 51]) :
    (Read ps fuel r).outcome = Outcome.absent ∧
    (Read ps fuel r).calls = [] ∧
    BufioReader.pendingOver pending (isID3Tag (NewReader r)).2 = pending r ∧
    ∃ k, min 3 (pending r).length ≤ k ∧ k ≤ 4096 ∧
      pending (Read ps fuel r).reader = (pending r).drop k ∧
      ∀ m, ∃ j, (IOReader.read (Read ps fuel r).reader m).1
        = ((pending r).drop k).take j := by
  obtain ⟨h1, h2, h3, h4⟩ := isID3Tag_spec hD r
  have hfalse : (isID3Tag (NewReader r)).1 = false := by
    cases hb : (isID3Tag (NewReader r)).1 with
    | false => rfl
    | true => exact absurd (h4.mp hb) hno
  rw [Read_of_not_tag ps fuel r hfalse]
  have hpend : pending (isID3Tag (NewReader r)).2.rd
      = (pending r).drop (isID3Tag (NewReader r)).2.buf.length := by
    have e : (isID3Tag (NewReader r)).2.buf ++ pending (isID3Tag (NewReader r)).2.rd
        = pending r := h1
    rw [← e, List.drop_left]
  refine ⟨rfl, rfl, h1, (isID3Tag (NewReader r)).2.buf.length, h3, h2, hpend, ?_⟩
  intro m
  refine ⟨(IOReader.read (isID3Tag (NewReader r)).2.rd m).1.length, ?_⟩
  show (IOReader.read (isID3Tag (NewReader r)).2.rd m).1 = _
  rw [← hpend]
  conv_rhs => rw [hD.split (isID3Tag (NewReader r)).2.rd m]
  simp

/-- C8 (amended), at the 5-byte stream `ABCDE` read through a reader that
delivers one byte per call: the three inspected bytes are taken and a later
read on the caller's reader obtains `D`. -/
theorem C8_absent_keeps_peeked_bytes_witness :
    (Read (noFrameParsers ChunkReader) 0 (ChunkReader.mk [65, 66, 67, 68, 69] 1)).outcome
      = Outcome.absent ∧
    (Read (noFrameParsers ChunkReader) 0 (ChunkReader.mk [65, 66, 67, 68, 69] 1)).reader
      = ChunkReader.mk [68, 69] 1 ∧
    (IOReader.read
      (Read (noFrameParsers ChunkReader) 0 (ChunkReader.mk [65, 66, 67, 68, 69] 1)).reader
      3).1 = [68] ∧
    BufioReader.pendingOver (fun r : ChunkReader => if r.cap = 0 then [] else r.rest)
      (isID3Tag (NewReader (ChunkReader.mk [65, 66, 67, 68, 69] 1))).2
      = [65, 66, 67, 68, 69] := by
  obtain ⟨h1, _, h3, _⟩ :=
    C8_absent_keeps_peeked_bytes (fun r : ChunkReader => if r.cap = 0 then [] else r.rest)
      delivers_chunkReader (noFrameParsers ChunkReader) 0
      (ChunkReader.mk [65, 66, 67, 68, 69] 1) (by decide)
  exact ⟨h1, by decide, by decide, h3⟩

/-- C10: for every reader that delivers its pending bytes in order and without
loss, on a stream that starts with `ID3`, `Read` is the run of one decoder
chosen by the decoded `Header.Version` alone: the ID3v2.2 implementation for
version 2, the ID3v2.3 implementation for version 3, the ID3v2.4
implementation for version 4, constructed on the size-bounded view and looped
on the decoded record; the other two implementations are neither constructed
nor called, and every call after the construction is a `HasFrame` or a
`ReadFrame` on the chosen decoder. -/
theorem C10_decoder_selection {ρ σ : Type} [IOReader ρ] (pending : ρ → List Byte)
    (hD : Delivers pending) (ps : Parsers ρ σ) (fuel : Nat)
    (r : ρ) (file : File) (rd : BufioReader ρ)
    (hmagic : (pending r).take 3 = [73, 68, 51])
    (hparse : parseID3v2Header File.new (isID3Tag (NewReader r)).2 = some (file, rd)) :
    (file.Header.Version = 2 →
      Read ps fuel r = runDecoder ps.ID3v22 Variant.v22 fuel
        (NewReader (LimitReader rd file.Header.Size)) file) ∧
    (file.Header.Version = 3 →
      Read ps fuel r = runDecoder ps.ID3v23 Variant.v23 fuel
        (NewReader (LimitReader rd file.Header.Size)) file) ∧
    (file.Header.Version = 4 →
      Read ps fuel r = runDecoder ps.ID3v24 Variant.v24 fuel
        (NewReader (LimitReader rd file.Header.Size)) file) ∧
    (∀ v : Variant, file.Header.Version = v.version →
      ∃ calls, (Read ps fuel r).calls
          = Event.construct v (NewReader (LimitReader rd file.Header.Size)) :: calls ∧
        ∀ e ∈ calls, e = Event.hasFrame v true ∨ e = Event.hasFrame v false
          ∨ e = Event.readFrame v) := by
  have htag : (isID3Tag (NewReader r)).1 = true := (isID3Tag_spec hD r).2.2.2.mpr hmagic
  have key : ∀ v : Variant, file.Header.Version = v.version →
      Read ps fuel r = runDecoder (ps.get v) v fuel
        (NewReader (LimitReader rd file.Header.Size)) file := by
    intro v hver
    exact Read_of_parse ps fuel r file rd v htag hparse
      (by rw [hver]; exact selectVariant_version v)
  refine ⟨fun h => key Variant.v22 h, fun h => key Variant.v23 h,
    fun h => key Variant.v24 h, ?_⟩
  intro v hver
  rw [key v hver, runDecoder_calls]
  exact ⟨_, rfl, frameLoop_calls (ps.get v) v fuel _ _⟩

/-- C10, at the stream `ID3`, 3, 0, 0x80, 0, 0, 7, 104 (version 3) with three
decoders that write their own name into `Name`: the record `Read` returns was
written by the ID3v2.3 decoder. -/
theorem C10_decoder_selection_witness :
    (Read (stampParsers ByteReader) 2
      (ByteReader.mk [73, 68, 51, 3, 0, 0x80, 0, 0, 7, 104])).outcome
      = Outcome.record
          ⟨⟨3, 0, false, false, false, false, 1000⟩, "ID3v2.3", "", "", "", "", "", "", ""⟩ ∧
    (Read (stampParsers ByteReader) 2
      (ByteReader.mk [73, 68, 51, 3, 0, 0x80, 0, 0, 7, 104])).calls
      = [Event.construct Variant.v23 (NewReader (LimitReader ⟨[], ⟨[]⟩⟩ 1000)),
         Event.hasFrame Variant.v23 true, Event.readFrame Variant.v23,
         Event.hasFrame Variant.v23 false] := by
  obtain ⟨_, h3, _, _⟩ :=
    C10_decoder_selection (fun r : ByteReader => r.rest) delivers_byteReader
      (stampParsers ByteReader) 2 (ByteReader.mk [73, 68, 51, 3, 0, 0x80, 0, 0, 7, 104])
      ⟨⟨3, 0, false, false, false, false, 1000⟩, "", "", "", "", "", "", "", ""⟩
      ⟨[], ⟨[]⟩⟩ (by decide) (by decide)
  rw [h3 (by decide)]
  exact ⟨by decide, by decide⟩

end ID3
